import Mathlib

/-!
# VT100 Tetris (`software/40col-vt100/tetris.c`): a shallow embedding

The game state of the C program is embedded as pure Lean data.

* A C `int` is a Lean `Int`.  Piece coordinates, indices and row counts stay far
  from the limits of `int`.  The score state does not: `score` and `lines` grow
  with play, so the arithmetic of `clear_lines` goes through `int_wrap iw`, where
  `iw = some n` is an `n`-bit two's complement `int` whose results wrap (what cc65
  and the usual hosted compilers do on overflow) and `iw = none` is the
  idealisation by unbounded integers.
* An `unsigned int` is a `Nat` reduced modulo `2 ^ w`, where `w` is the width of
  `unsigned int` on the target (16 for cc65, 32 on most hosted compilers).
  Functions using unsigned arithmetic take `w` explicitly; on a real target
  `iw = some w`.
* A C array is a `List`; every array access goes through `idx`/`upd`, which
  return `none` when the index is outside the array.  A function of the model
  returns `none` exactly when the C function would perform an out-of-range
  access (or when a loop runs out of fuel).
* The drawing routines only write to the terminal and are left out.
-/

namespace Tetris

/-! ## Arrays -/

/-- Read `a[i]` for a C `int` index; `none` when the index is out of range. -/
def idx {α : Type} (a : List α) (i : Int) : Option α :=
  if 0 ≤ i then a[i.toNat]? else none

/-- Write `a[i] = v` for a C `int` index; `none` when the index is out of range. -/
def upd {α : Type} (a : List α) (i : Int) (v : α) : Option (List α) :=
  if 0 ≤ i ∧ i.toNat < a.length then some (a.set i.toNat v) else none

/-! ## Constants and tables -/

def COLS : Int := 10
def ROWS : Int := 20

/-- Piece colours (ANSI foreground codes), `piece_color[7]`. -/
def piece_color : List Int := [36, 33, 35, 32, 31, 34, 37]

/-- Piece shapes `pieces[piece][rotation][cell][{row,col}]`. -/
def pieces : List (List (List (List Int))) :=
  [ -- I
    [[[0,0],[0,1],[0,2],[0,3]], [[0,2],[1,2],[2,2],[3,2]],
     [[2,0],[2,1],[2,2],[2,3]], [[0,1],[1,1],[2,1],[3,1]]],
    -- O
    [[[0,0],[0,1],[1,0],[1,1]], [[0,0],[0,1],[1,0],[1,1]],
     [[0,0],[0,1],[1,0],[1,1]], [[0,0],[0,1],[1,0],[1,1]]],
    -- T
    [[[0,1],[1,0],[1,1],[1,2]], [[0,1],[1,1],[2,1],[1,2]],
     [[1,0],[1,1],[1,2],[2,1]], [[0,1],[1,0],[1,1],[2,1]]],
    -- S
    [[[0,1],[0,2],[1,0],[1,1]], [[0,1],[1,1],[1,2],[2,2]],
     [[0,1],[0,2],[1,0],[1,1]], [[0,1],[1,1],[1,2],[2,2]]],
    -- Z
    [[[0,0],[0,1],[1,1],[1,2]], [[0,2],[1,1],[1,2],[2,1]],
     [[0,0],[0,1],[1,1],[1,2]], [[0,2],[1,1],[1,2],[2,1]]],
    -- L
    [[[0,2],[1,0],[1,1],[1,2]], [[0,1],[1,1],[2,1],[2,2]],
     [[1,0],[1,1],[1,2],[2,0]], [[0,0],[0,1],[1,1],[2,1]]],
    -- J
    [[[0,0],[1,0],[1,1],[1,2]], [[0,1],[0,2],[1,1],[2,1]],
     [[1,0],[1,1],[1,2],[2,2]], [[0,1],[1,1],[2,0],[2,1]]] ]

/-- The table read `pieces[piece][rot][i][j]`. -/
def pieces_at (piece rot i j : Int) : Option Int := do
  let a ← idx pieces piece
  let b ← idx a rot
  let c ← idx b i
  idx c j

/-! ## Board -/

/-- The playfield `int board[ROWS][COLS]`: a list of rows, each a list of cells. -/
abbrev Board := List (List Int)

/-- A board has the shape of the C array: 20 rows of 10 cells. -/
def Board.WF (b : Board) : Prop :=
  b.length = 20 ∧ ∀ row ∈ b, row.length = 10

instance (b : Board) : Decidable b.WF := by
  unfold Board.WF; infer_instance

/-- The read `board[r][c]`. -/
def board_get (b : Board) (r c : Int) : Option Int := do
  let row ← idx b r
  idx row c

/-- The write `board[r][c] = v`. -/
def board_set (b : Board) (r c v : Int) : Option Board := do
  let row ← idx b r
  let row2 ← upd row c v
  upd b r row2

/-- The board after `memset(board, 0, sizeof(board))`. -/
def empty_board : Board := List.replicate 20 (List.replicate 10 0)

/-! ## Piece helpers -/

/-- One iteration of the loop of `piece_cells`: the absolute cell `out[i]`. -/
def piece_cell (piece rot pr pc i : Int) : Option (Int × Int) := do
  let dr ← pieces_at piece rot i 0
  let dc ← pieces_at piece rot i 1
  some (pr + dr, pc + dc)

/-- The array `out[4][2]` filled by `piece_cells`, as four `(row, col)` pairs. -/
def piece_cells (piece rot pr pc : Int) : Option (List (Int × Int)) :=
  [0, 1, 2, 3].mapM (piece_cell piece rot pr pc)

/-- The loop of `piece_valid` over the remaining cells. -/
def piece_valid_loop (b : Board) : List (Int × Int) → Option Int
  | [] => some 1
  | (r, c) :: rest =>
    if r < 0 ∨ r ≥ ROWS ∨ c < 0 ∨ c ≥ COLS then some 0
    else do
      let v ← board_get b r c
      if v ≠ 0 then some 0 else piece_valid_loop b rest

/-- The collision test `piece_valid(piece, rot, pr, pc)` against board `b`. -/
def piece_valid (b : Board) (piece rot pr pc : Int) : Option Int := do
  let cells ← piece_cells piece rot pr pc
  piece_valid_loop b cells

/-- Relative `(row, col)` offsets of shape `pieces[k][r]` (empty when out of range). -/
def offs (k r : Int) : List (Int × Int) :=
  match idx pieces k >>= (idx · r) with
  | some s => s.filterMap fun c => match c with
    | [a, b] => some (a, b)
    | _ => none
  | none => []

/-- A cell is inside the grid and empty on board `b`. -/
def cell_free (b : Board) (c : Int × Int) : Prop :=
  0 ≤ c.1 ∧ c.1 < 20 ∧ 0 ≤ c.2 ∧ c.2 < 10 ∧ board_get b c.1 c.2 = some 0

/-! ## Game state -/

/-- The global variables of the program. -/
structure Game where
  board : Board
  cur_piece : Int
  cur_rot : Int
  cur_r : Int
  cur_c : Int
  next_piece : Int
  score : Int
  lines : Int
  level : Int
  game_over : Int
  rng_state : Nat
  deriving DecidableEq, Repr

/-! ## Random generator -/

/-- The generator `rnd7`: the new `rng_state` and the returned value.  `w` is the width
of `unsigned int`; the multiplication and addition are carried out modulo a power of two
that is at least `2 ^ w` and the assignment to `rng_state` reduces modulo `2 ^ w`. -/
def rnd7 (w : Nat) (s : Nat) : Nat × Int :=
  let s2 := (s * 1664525 + 1013904223) % 2 ^ w
  (s2, (((s2 >>> 13) % 7 : Nat) : Int))

/-! ## Locking -/

/-- The loop of `piece_lock`: `board[cells[i][0]][cells[i][1]] = piece_color[cur_piece]`. -/
def piece_lock_loop (piece : Int) : Board → List (Int × Int) → Option Board
  | b, [] => some b
  | b, (r, c) :: rest => do
    let v ← idx piece_color piece
    let b2 ← board_set b r c v
    piece_lock_loop piece b2 rest

/-- The procedure `piece_lock`. -/
def piece_lock (g : Game) : Option Game := do
  let cells ← piece_cells g.cur_piece g.cur_rot g.cur_r g.cur_c
  let b ← piece_lock_loop g.cur_piece g.board cells
  some { g with board := b }

/-! ## Line clear -/

/-- Points table `pts[5]` of `clear_lines`. -/
def pts : List Int := [0, 100, 300, 500, 800]

/-- Column indices visited by `for (c = 0; c < COLS; c++)`. -/
def col_range : List Int := [0, 1, 2, 3, 4, 5, 6, 7, 8, 9]

/-- The scan `for (c = 0; c < COLS; c++) if (!board[r][c]) { full = 0; break; }`
over the remaining columns; the result is the final value of `full`. -/
def row_full_loop (b : Board) (r : Int) : List Int → Option Int
  | [] => some 1
  | c :: cs => do
    let v ← board_get b r c
    if v = 0 then some 0 else row_full_loop b r cs

/-- The value of `full` for row `r`. -/
def row_full (b : Board) (r : Int) : Option Int :=
  row_full_loop b r col_range

/-- The loop `for (dst = r; dst > 0; dst--) memcpy(board[dst], board[dst-1], ...)`,
by recursion on the current value of `dst`. -/
def shift_down : Nat → Board → Option Board
  | 0, b => some b
  | dst + 1, b => do
    let src ← idx b (dst : Int)
    let b2 ← upd b ((dst : Int) + 1) src
    shift_down dst b2

/-- The row written by `memset(board[0], 0, sizeof(board[0]))`. -/
def zero_row : List Int := List.replicate 10 0

/-- The row loop `for (r = ROWS - 1; r >= 0; r--)` of `clear_lines`, started with the
current values of `r`, the board and `cleared`.  A full row is removed and `r++`
cancels the following `r--`, so the same index is examined again.  `none` on an
out-of-range access or when the fuel is used up. -/
def clear_lines_loop : Nat → Int → Board → Int → Option (Board × Int)
  | 0, _, _, _ => none
  | fuel + 1, r, b, cleared =>
    if r ≥ 0 then do
      let full ← row_full b r
      if full ≠ 0 then do
        let b1 ← shift_down r.toNat b
        let b2 ← upd b1 0 zero_row
        clear_lines_loop fuel (r + 1 - 1) b2 (cleared + 1)
      else clear_lines_loop fuel (r - 1) b cleared
    else some (b, cleared)

/-- The value stored in an `int` for the mathematical result `x`: with `iw = some n` the
`n`-bit two's complement representative of `x` (arithmetic wraps on overflow), with
`iw = none` the number `x` itself (unbounded integers). -/
def int_wrap (iw : Option Nat) (x : Int) : Int :=
  match iw with
  | none => x
  | some n => (x + 2 ^ n / 2) % 2 ^ n - 2 ^ n / 2

/-- The number `x` is representable in an `int`: always for unbounded integers, and
`-2^(n-1) ≤ x < 2^(n-1)` for an `n`-bit `int`. -/
def int_fits (iw : Option Nat) (x : Int) : Prop :=
  match iw with
  | none => True
  | some n => -(2 ^ n / 2) ≤ x ∧ x < 2 ^ n - 2 ^ n / 2

instance (iw : Option Nat) (x : Int) : Decidable (int_fits iw x) := by
  unfold int_fits
  cases iw <;> infer_instance

/-- The procedure `clear_lines`; `iw` is the width of `int`, used by the updates
`lines += cleared` and `score += pts[cleared] * (level + 1)`. -/
def clear_lines (iw : Option Nat) (fuel : Nat) (g : Game) : Option Game := do
  let (b, cleared) ← clear_lines_loop fuel (ROWS - 1) g.board 0
  if cleared ≠ 0 then do
    let lines := int_wrap iw (g.lines + cleared)
    let p ← idx pts cleared
    let score := int_wrap iw (g.score + int_wrap iw (p * int_wrap iw (g.level + 1)))
    let level := Int.tdiv lines 10
    some { g with board := b, lines := lines, score := score, level := level }
  else some { g with board := b }

/-! ## Spawn and fall interval -/

/-- The procedure `spawn`. -/
def spawn (w : Nat) (g : Game) : Option Game := do
  let g1 := { g with cur_piece := g.next_piece }
  let (s, n) := rnd7 w g1.rng_state
  let g2 := { g1 with rng_state := s, next_piece := n, cur_rot := 0, cur_r := 0,
                      cur_c := Int.tdiv COLS 2 - 2 }
  let v ← piece_valid g2.board g2.cur_piece g2.cur_rot g2.cur_r g2.cur_c
  if v = 0 then some { g2 with game_over := 1 } else some g2

def FALL_BASE : Nat := 20000
def LOOP_DIVIDER : Nat := 10

/-- The function `fall_count` for the current `level`, with `unsigned int` of width `w`:
the cast, the multiplication and the subtraction wrap modulo `2 ^ w`. -/
def fall_count (w : Nat) (level : Int) : Nat :=
  let m : Nat := 2 ^ w
  let ulevel : Nat := (level % (m : Int)).toNat
  let f := (FALL_BASE % m + m - (ulevel * (FALL_BASE / LOOP_DIVIDER)) % m) % m
  if f < 500 then 500 else f

/-! ## Input decoder -/

def KEY_LEFT : Nat := 65    -- 'A'
def KEY_RIGHT : Nat := 68   -- 'D'
def KEY_ROTATE : Nat := 87  -- 'W'
def KEY_DROP : Nat := 83    -- 'S'
def KEY_QUIT : Nat := 81    -- 'Q'
def KEY_NONE : Nat := 0

/-- The function `pia_getc` once a key is ready: the data register with bit 7 masked off. -/
def pia_getc (kbd : Nat) : Nat := kbd &&& 0x7F

/-- The function `wait_key`: `rd` is the data register if a key became ready within the
5000 polls and `none` on timeout; the result is the byte stored in `*out`, if any. -/
def wait_key (rd : Option Nat) : Option Nat :=
  match rd with
  | some kbd => some (kbd &&& 0x7F)
  | none => none

/-- The function `get_key`, given the first byte and the outcome of the (at most two)
follow-up reads. -/
def get_key (kbd : Nat) (rd2 rd3 : Option Nat) : Nat :=
  let ch := pia_getc kbd
  if ch = 0x1B then
    match wait_key rd2 with
    | none => KEY_NONE
    | some c2 =>
      if c2 ≠ 91 then KEY_NONE   -- '['
      else
        match wait_key rd3 with
        | none => KEY_NONE
        | some c3 =>
          if c3 = 65 then KEY_ROTATE        -- 'A'
          else if c3 = 66 then KEY_DROP     -- 'B'
          else if c3 = 67 then KEY_RIGHT    -- 'C'
          else if c3 = 68 then KEY_LEFT     -- 'D'
          else KEY_NONE
  else if ch = 65 then KEY_LEFT
  else if ch = 68 then KEY_RIGHT
  else if ch = 87 then KEY_ROTATE
  else if ch = 83 then KEY_DROP
  else if ch = 81 then KEY_QUIT
  else KEY_NONE

/-! ## Main loop: key handling -/

/-- The loop `while (piece_valid(cur_piece, cur_rot, cur_r + 1, cur_c)) cur_r++;`. -/
def drop_loop : Nat → Game → Option Game
  | 0, _ => none
  | fuel + 1, g => do
    let v ← piece_valid g.board g.cur_piece g.cur_rot (g.cur_r + 1) g.cur_c
    if v ≠ 0 then drop_loop fuel { g with cur_r := g.cur_r + 1 } else some g

/-- The `switch (ch)` of the main loop applied to a decoded key. -/
def apply_key (fuel : Nat) (ch : Nat) (g : Game) : Option Game :=
  if ch = KEY_QUIT then some { g with game_over := 1 }
  else if ch = KEY_LEFT then do
    let v ← piece_valid g.board g.cur_piece g.cur_rot g.cur_r (g.cur_c - 1)
    if v ≠ 0 then some { g with cur_c := g.cur_c - 1 } else some g
  else if ch = KEY_RIGHT then do
    let v ← piece_valid g.board g.cur_piece g.cur_rot g.cur_r (g.cur_c + 1)
    if v ≠ 0 then some { g with cur_c := g.cur_c + 1 } else some g
  else if ch = KEY_ROTATE then do
    let nr := Int.tmod (g.cur_rot + 1) 4
    let v ← piece_valid g.board g.cur_piece nr g.cur_r g.cur_c
    if v ≠ 0 then some { g with cur_rot := nr } else some g
  else if ch = KEY_DROP then drop_loop fuel g
  else some g

/-! ## Program start, key sequences and auxiliary definitions for the statements -/

/-- The state of the program right after `rng_state = 42U; ...; next_piece = rnd7();`
in `main`: empty board, all counters zero. -/
def game_start (w : Nat) : Game :=
  let (s, n) := rnd7 w 42
  { board := empty_board, cur_piece := 0, cur_rot := 0, cur_r := 0, cur_c := 0,
    next_piece := n, score := 0, lines := 0, level := 0, game_over := 0, rng_state := s }

/-- The key handling of the main loop applied to a sequence of decoded keys, one per
iteration, with no fall step in between. -/
def apply_keys (fuel : Nat) : List Nat → Game → Option Game
  | [], g => some g
  | ch :: rest, g => do
    let g2 ← apply_key fuel ch g
    apply_keys fuel rest g2

/-- A row is full: every one of its cells is non-zero. -/
def row_is_full (row : List Int) : Bool := row.all fun v => v != 0

/-- Number of full rows of a board. -/
def count_full (b : Board) : Nat := b.countP row_is_full

/-- A board with one full row (row 18) between two partly filled rows. -/
def sample_board : Board :=
  List.replicate 17 zero_row ++
    [[0, 36, 0, 0, 0, 0, 0, 0, 0, 0],
     [33, 33, 35, 35, 35, 36, 32, 32, 31, 31],
     [33, 33, 0, 35, 0, 36, 0, 32, 32, 31]]

/-- A game in which the bottom row lacks only column 1 and a vertical I piece hangs
above that gap, resting on the floor. -/
def sample_game : Game :=
  { board := List.replicate 19 zero_row ++ [[33, 0, 35, 35, 35, 36, 32, 32, 31, 31]],
    cur_piece := 0, cur_rot := 1, cur_r := 16, cur_c := -1, next_piece := 4,
    score := 1234, lines := 25, level := 2, game_over := 0, rng_state := 7 }

/-- The game `sample_game` after `piece_lock`. -/
def sample_locked : Game :=
  { sample_game with
    board := List.replicate 16 zero_row ++
      [[0, 36, 0, 0, 0, 0, 0, 0, 0, 0], [0, 36, 0, 0, 0, 0, 0, 0, 0, 0],
       [0, 36, 0, 0, 0, 0, 0, 0, 0, 0], [33, 36, 35, 35, 35, 36, 32, 32, 31, 31]] }

/-! ## Main loop: one iteration -/

/-- The key part of an iteration, `if (kbhit()) { ch = get_key(); switch (ch) ... }`:
`inp` is `none` when no key is waiting, otherwise the keyboard byte and the outcome of
the two follow-up reads of `get_key`. -/
def key_step (fuel : Nat) (inp : Option (Nat × Option Nat × Option Nat)) (g : Game) :
    Option Game :=
  match inp with
  | none => some g
  | some (kbd, rd2, rd3) => apply_key fuel (get_key kbd rd2 rd3) g

/-- The body of `if (counter >= fall_limit)` after the counter and the limit are reset:
move the piece one row down, or lock it, clear lines and spawn. -/
def fall_step (w : Nat) (iw : Option Nat) (fuel : Nat) (g : Game) : Option Game := do
  let v ← piece_valid g.board g.cur_piece g.cur_rot (g.cur_r + 1) g.cur_c
  if v ≠ 0 then some { g with cur_r := g.cur_r + 1 }
  else do
    let g1 ← piece_lock g
    let g2 ← clear_lines iw fuel g1
    spawn w g2

/-- The variables of the main loop: the globals and the locals `counter`, `fall_limit`. -/
structure Loop where
  g : Game
  counter : Nat
  fall_limit : Nat
  deriving DecidableEq, Repr

/-- One iteration of `while (!game_over)`: key handling, then `counter++` and, when the
counter has reached `fall_limit`, the fall step.  The loop condition is tested by the
caller, before the iteration only. -/
def main_iter (w : Nat) (iw : Option Nat) (fuel : Nat)
    (inp : Option (Nat × Option Nat × Option Nat)) (s : Loop) : Option Loop := do
  let g1 ← key_step fuel inp s.g
  let counter := (s.counter + 1) % 2 ^ w
  if counter ≥ s.fall_limit then do
    let fall_limit := fall_count w g1.level
    let g2 ← fall_step w iw fuel g1
    some { g := g2, counter := 0, fall_limit := fall_limit }
  else some { g := g1, counter := counter, fall_limit := s.fall_limit }

/-- The state at the head of the main loop when it is first reached: `main` has run
`spawn()` on the start state and `fall_limit = fall_count()`. -/
def loop_start (w : Nat) : Option Loop := do
  let g ← spawn w (game_start w)
  some { g := g, counter := 0, fall_limit := fall_count w g.level }

/-- States at the head of the main loop that the program can reach: the first one, and
the one after an iteration entered with `game_over = 0`, for any keyboard input. -/
inductive Reachable (w : Nat) (iw : Option Nat) (fuel : Nat) : Loop → Prop
  | start (s : Loop) : loop_start w = some s → Reachable w iw fuel s
  | step (s s2 : Loop) (inp : Option (Nat × Option Nat × Option Nat)) :
      Reachable w iw fuel s → s.g.game_over = 0 → main_iter w iw fuel inp s = some s2 →
      Reachable w iw fuel s2

/-- A board whose 20 rows are all full. -/
def full_board : Board := List.replicate 20 (List.replicate 10 36)

/-- A game on the full board. -/
def full_game : Game := { sample_game with board := full_board }

/-- A game whose rows 0 and 1 are fully occupied and whose other rows are empty. -/
def top_full_game : Game :=
  { sample_game with
    board := List.replicate 2 (List.replicate 10 36) ++ List.replicate 18 zero_row }

/-- The game `sample_game` with the piece lifted to row 10, next to the left wall. -/
def mid_game : Game := { sample_game with cur_r := 10 }

/-- The part of the loop invariant that does not depend on the position of the piece:
a 20x10 board without full rows, kinds in 0..6, rotation in 0..3. -/
def Base (g : Game) : Prop :=
  g.board.WF ∧ count_full g.board = 0 ∧
    (0 ≤ g.cur_piece ∧ g.cur_piece < 7) ∧ (0 ≤ g.next_piece ∧ g.next_piece < 7) ∧
    (0 ≤ g.cur_rot ∧ g.cur_rot < 4)

/-- The active piece is accepted by `piece_valid` where it stands. -/
def Valid (g : Game) : Prop :=
  piece_valid g.board g.cur_piece g.cur_rot g.cur_r g.cur_c = some 1

/-- What the key handling never touches: board, kinds, score state, generator. -/
def Frame (g g1 : Game) : Prop :=
  g1.board = g.board ∧ g1.cur_piece = g.cur_piece ∧ g1.next_piece = g.next_piece ∧
    g1.score = g.score ∧ g1.lines = g.lines ∧ g1.level = g.level ∧
    g1.rng_state = g.rng_state

/-- The head of the main loop when it is first reached with a 16-bit `unsigned int`. -/
def start_loop16 : Loop :=
  { g := { board := empty_board, cur_piece := 5, cur_rot := 0, cur_r := 0, cur_c := 3,
           next_piece := 2, score := 0, lines := 0, level := 0, game_over := 0,
           rng_state := 23788 },
    counter := 0, fall_limit := 20000 }

/-! # Properties -/

theorem piece_cells_eq (k r pr pc : Int) (hk : 0 ≤ k ∧ k < 7) (hr : 0 ≤ r ∧ r < 4) :
    piece_cells k r pr pc = some ((offs k r).map fun o => (pr + o.1, pc + o.2)) := by
  obtain ⟨hk0, hk1⟩ := hk
  obtain ⟨hr0, hr1⟩ := hr
  interval_cases k <;> interval_cases r <;> rfl

theorem offs_facts (k r : Int) (hk : 0 ≤ k ∧ k < 7) (hr : 0 ≤ r ∧ r < 4) :
    (offs k r).length = 4 ∧ (offs k r).Nodup ∧
      (∀ o ∈ offs k r, 0 ≤ o.1 ∧ o.1 ≤ 3 ∧ 0 ≤ o.2 ∧ o.2 ≤ 3) ∧
      (∀ i : Int, 0 ≤ i → i < 4 → ∃ o, idx (offs k r) i = some o ∧
        pieces_at k r i 0 = some o.1 ∧ pieces_at k r i 1 = some o.2) := by
  obtain ⟨hk0, hk1⟩ := hk
  obtain ⟨hr0, hr1⟩ := hr
  interval_cases k <;> interval_cases r <;>
    refine ⟨by decide, by decide, by decide, fun i h0 h4 => ?_⟩ <;>
    interval_cases i <;> exact ⟨_, rfl, rfl, rfl⟩

/-! ## Array lemmas -/

theorem idx_map {α β : Type} (f : α → β) (l : List α) (i : Int) :
    idx (l.map f) i = (idx l i).map f := by
  unfold idx
  split <;> simp

theorem idx_some_of_lt {α : Type} (l : List α) (i : Int) (h0 : 0 ≤ i) (h1 : i < l.length) :
    ∃ v, idx l i = some v := by
  have h : i.toNat < l.length := by omega
  exact ⟨l[i.toNat], by simp [idx, h0, List.getElem?_eq_getElem h]⟩

theorem idx_mem {α : Type} {l : List α} {i : Int} {v : α} (h : idx l i = some v) : v ∈ l := by
  unfold idx at h
  split at h
  · exact List.getElem?_mem h
  · simp at h

theorem idx_eq_none_iff {α : Type} (l : List α) (i : Int) :
    idx l i = none ↔ i < 0 ∨ (l.length : Int) ≤ i := by
  unfold idx
  split
  · rw [List.getElem?_eq_none_iff]; omega
  · simp; omega

/-- On a well-formed board a read is defined exactly for in-range coordinates. -/
theorem board_get_eq_none_iff (b : Board) (hb : b.WF) (r c : Int) :
    board_get b r c = none ↔ ¬ (0 ≤ r ∧ r < 20 ∧ 0 ≤ c ∧ c < 10) := by
  unfold board_get
  cases hrow : idx b r with
  | none =>
    have := (idx_eq_none_iff b r).1 hrow
    rw [hb.1] at this
    simp; omega
  | some row =>
    have hlen := hb.2 row (idx_mem hrow)
    have hr : ¬ (r < 0 ∨ ((b.length : Nat) : Int) ≤ r) := by
      rw [← idx_eq_none_iff, hrow]; simp
    rw [hb.1] at hr
    simp only [Option.some_bind, Option.bind_eq_bind]
    rw [idx_eq_none_iff, hlen]
    omega

theorem board_get_some (b : Board) (hb : b.WF) (r c : Int)
    (h : 0 ≤ r ∧ r < 20 ∧ 0 ≤ c ∧ c < 10) : ∃ v, board_get b r c = some v := by
  cases hg : board_get b r c with
  | none => exact absurd h ((board_get_eq_none_iff b hb r c).1 hg)
  | some v => exact ⟨v, rfl⟩

theorem piece_valid_loop_spec (b : Board) (hb : b.WF) (cells : List (Int × Int)) :
    (piece_valid_loop b cells = some 1 ∧ ∀ c ∈ cells, cell_free b c) ∨
      (piece_valid_loop b cells = some 0 ∧ ∃ c ∈ cells, ¬ cell_free b c) := by
  induction cells with
  | nil => left; simp [piece_valid_loop]
  | cons hd tl ih =>
    obtain ⟨r, c⟩ := hd
    unfold piece_valid_loop
    by_cases hout : r < 0 ∨ r ≥ ROWS ∨ c < 0 ∨ c ≥ COLS
    · right
      refine ⟨by simp [hout], (r, c), by simp, fun hf => ?_⟩
      simp only [cell_free, ROWS, COLS] at hf hout
      omega
    · have hin : 0 ≤ r ∧ r < 20 ∧ 0 ≤ c ∧ c < 10 := by
        simp only [ROWS, COLS] at hout; omega
      obtain ⟨v, hv⟩ := board_get_some b hb r c hin
      simp only [hout, if_false, hv, Option.some_bind, Option.bind_eq_bind]
      by_cases hv0 : v = 0
      · subst hv0
        simp only [ne_eq, not_true_eq_false, if_false]
        rcases ih with ⟨h1, h2⟩ | ⟨h1, c2, hc2, h2⟩
        · left
          refine ⟨h1, fun x hx => ?_⟩
          rcases List.mem_cons.1 hx with rfl | hx
          · exact ⟨hin.1, hin.2.1, hin.2.2.1, hin.2.2.2, hv⟩
          · exact h2 x hx
        · right
          exact ⟨h1, c2, List.mem_cons_of_mem _ hc2, h2⟩
      · right
        refine ⟨by simp [hv0], (r, c), by simp, fun hf => ?_⟩
        have := hf.2.2.2.2
        rw [hv] at this
        exact hv0 (Option.some.inj this)

/-- C9: for a piece kind in 0..6 and a rotation in 0..3, `piece_cells` yields exactly four
pairwise distinct cells, the i-th being the anchor plus the offset `pieces[k][r][i]`. -/
theorem piece_cells_four_distinct (k r pr pc : Int) (hk : 0 ≤ k ∧ k < 7) (hr : 0 ≤ r ∧ r < 4) :
    ∃ cells, piece_cells k r pr pc = some cells ∧ cells.length = 4 ∧ cells.Nodup ∧
      ∀ i : Int, 0 ≤ i → i < 4 → ∃ dr dc, pieces_at k r i 0 = some dr ∧
        pieces_at k r i 1 = some dc ∧ idx cells i = some (pr + dr, pc + dc) := by
  obtain ⟨hlen, hnd, -, hidx⟩ := offs_facts k r hk hr
  refine ⟨_, piece_cells_eq k r pr pc hk hr, by simpa using hlen, ?_, fun i h0 h4 => ?_⟩
  · refine hnd.map ?_
    intro a c hac
    simp only [Prod.mk.injEq, add_right_inj] at hac
    exact Prod.ext hac.1 hac.2
  · obtain ⟨o, ho, h1, h2⟩ := hidx i h0 h4
    exact ⟨o.1, o.2, h1, h2, by rw [idx_map, ho]; rfl⟩

theorem piece_cells_four_distinct_witness :
    ∃ cells, piece_cells 2 3 (-1) 8 = some cells ∧ cells.length = 4 ∧ cells.Nodup ∧
      ∀ i : Int, 0 ≤ i → i < 4 → ∃ dr dc, pieces_at 2 3 i 0 = some dr ∧
        pieces_at 2 3 i 1 = some dc ∧ idx cells i = some (-1 + dr, 8 + dc) :=
  piece_cells_four_distinct 2 3 (-1) 8 (by decide) (by decide)

theorem mem_offs_map_iff (k r pr pc : Int) (hk : 0 ≤ k ∧ k < 7) (hr : 0 ≤ r ∧ r < 4)
    (P : Int × Int → Prop) :
    (∀ c ∈ (offs k r).map (fun o => (pr + o.1, pc + o.2)), P c) ↔
      ∀ i : Int, 0 ≤ i → i < 4 → ∃ dr dc, pieces_at k r i 0 = some dr ∧
        pieces_at k r i 1 = some dc ∧ P (pr + dr, pc + dc) := by
  obtain ⟨hlen, -, -, hidx⟩ := offs_facts k r hk hr
  constructor
  · intro h i h0 h4
    obtain ⟨o, ho, h1, h2⟩ := hidx i h0 h4
    exact ⟨o.1, o.2, h1, h2, h _ (List.mem_map.2 ⟨o, idx_mem ho, rfl⟩)⟩
  · intro h c hc
    obtain ⟨o, ho, rfl⟩ := List.mem_map.1 hc
    obtain ⟨n, hn, hget⟩ := List.getElem_of_mem ho
    obtain ⟨dr, dc, h1, h2, hP⟩ := h n (by omega) (by omega)
    obtain ⟨o2, ho2, h3, h4⟩ := hidx n (by omega) (by omega)
    have : o2 = o := by
      simp only [idx, Int.toNat_ofNat, Int.natCast_nonneg, if_true] at ho2
      rw [List.getElem?_eq_getElem hn, hget] at ho2
      exact (Option.some.inj ho2).symm
    subst this
    rw [h1] at h3; rw [h2] at h4
    rw [Option.some.inj h3, Option.some.inj h4] at hP
    exact hP

/-- C1: on a 20x10 board, for a piece kind in 0..6, a rotation in 0..3 and any integer
anchor, `piece_valid` returns 1 or 0 (it never fails, i.e. it never indexes the board out
of range), and it returns 1 exactly when each of the four cells
`(pr + pieces[k][r][i][0], pc + pieces[k][r][i][1])` lies in rows 0..19 and columns 0..9
and the board holds 0 there. -/
theorem piece_valid_iff (b : Board) (hb : b.WF) (k r pr pc : Int)
    (hk : 0 ≤ k ∧ k < 7) (hr : 0 ≤ r ∧ r < 4) :
    (piece_valid b k r pr pc = some 1 ∨ piece_valid b k r pr pc = some 0) ∧
      (piece_valid b k r pr pc = some 1 ↔
        ∀ i : Int, 0 ≤ i → i < 4 → ∃ dr dc, pieces_at k r i 0 = some dr ∧
          pieces_at k r i 1 = some dc ∧ 0 ≤ pr + dr ∧ pr + dr < 20 ∧ 0 ≤ pc + dc ∧
          pc + dc < 10 ∧ board_get b (pr + dr) (pc + dc) = some 0) := by
  have hcells := piece_cells_eq k r pr pc hk hr
  have hm := mem_offs_map_iff k r pr pc hk hr (cell_free b)
  simp only [cell_free] at hm
  unfold piece_valid
  rw [hcells]
  simp only [Option.some_bind, Option.bind_eq_bind]
  rcases piece_valid_loop_spec b hb ((offs k r).map fun o => (pr + o.1, pc + o.2)) with
    ⟨h1, h2⟩ | ⟨h1, c, hc, h2⟩
  · exact ⟨Or.inl h1, fun _ => hm.1 h2, fun _ => h1⟩
  · refine ⟨Or.inr h1, fun h => ?_, fun h => ?_⟩
    · rw [h1] at h; simp at h
    · exact absurd (hm.2 h c hc) h2

theorem piece_valid_iff_witness :
    empty_board.WF ∧
    (piece_valid empty_board 0 1 (-1) 4 = some 1 ∨ piece_valid empty_board 0 1 (-1) 4 = some 0) ∧
      (piece_valid empty_board 0 1 (-1) 4 = some 1 ↔
        ∀ i : Int, 0 ≤ i → i < 4 → ∃ dr dc, pieces_at 0 1 i 0 = some dr ∧
          pieces_at 0 1 i 1 = some dc ∧ 0 ≤ -1 + dr ∧ -1 + dr < 20 ∧ 0 ≤ 4 + dc ∧
          4 + dc < 10 ∧ board_get empty_board (-1 + dr) (4 + dc) = some 0) :=
  ⟨by decide, piece_valid_iff empty_board (by decide) 0 1 (-1) 4 (by decide) (by decide)⟩

/-! ## Fall interval -/

theorem two_pow_ge (w : Nat) (hw : 16 ≤ w) : 65536 ≤ 2 ^ w :=
  calc 65536 = 2 ^ 16 := by norm_num
    _ ≤ 2 ^ w := Nat.pow_le_pow_right (by norm_num) hw

/-- Up to level 10 the unsigned subtraction does not wrap and `fall_count` is the
mathematical `max(500, FALL_BASE - level * (FALL_BASE / 10))`. -/
theorem fall_count_small (w : Nat) (hw : 16 ≤ w) (level : Nat) (hl : level ≤ 10) :
    (fall_count w level : Int) = max 500 (20000 - 2000 * (level : Int)) := by
  have hm := two_pow_ge w hw
  have h1 : ((level : Int) % ((2 ^ w : Nat) : Int)).toNat = level := by
    rw [← Int.natCast_mod, Int.toNat_ofNat]
    exact Nat.mod_eq_of_lt (by omega)
  have h2 : 20000 % 2 ^ w = 20000 := Nat.mod_eq_of_lt (by omega)
  have h3 : (level * 2000) % 2 ^ w = level * 2000 := Nat.mod_eq_of_lt (by omega)
  have h4 : (20000 + 2 ^ w - level * 2000) % 2 ^ w = 20000 - level * 2000 := by
    have : 20000 + 2 ^ w - level * 2000 = (20000 - level * 2000) + 2 ^ w := by omega
    rw [this, Nat.add_mod_right]
    exact Nat.mod_eq_of_lt (by omega)
  simp only [fall_count, FALL_BASE, LOOP_DIVIDER, h1, h2, h3, h4, Nat.reduceDiv]
  split <;> omega

/-- From level 11 to level 32 the unsigned subtraction wraps and the floor test does not
catch it: the interval is `2 ^ w + 20000 - 2000 * level`, more than the level 0 interval. -/
theorem fall_count_wrapped (w : Nat) (hw : 16 ≤ w) (level : Nat) (h11 : 11 ≤ level)
    (h32 : level ≤ 32) : fall_count w level = 2 ^ w + 20000 - 2000 * level := by
  have hm := two_pow_ge w hw
  have h1 : ((level : Int) % ((2 ^ w : Nat) : Int)).toNat = level := by
    rw [← Int.natCast_mod, Int.toNat_ofNat]
    exact Nat.mod_eq_of_lt (by omega)
  have h2 : 20000 % 2 ^ w = 20000 := Nat.mod_eq_of_lt (by omega)
  have h3 : (level * 2000) % 2 ^ w = level * 2000 := Nat.mod_eq_of_lt (by omega)
  have h4 : (20000 + 2 ^ w - level * 2000) % 2 ^ w = 2 ^ w + 20000 - 2000 * level :=
    Nat.mod_eq_of_lt (by omega) |>.trans (by omega)
  simp only [fall_count, FALL_BASE, LOOP_DIVIDER, h1, h2, h3, h4, Nat.reduceDiv]
  split <;> omega

/-- C5: at level 11 `fall_count` does not return the floor 500 that
`max(500, FALL_BASE - level * (FALL_BASE / 10))` gives: the unsigned subtraction wraps and
the result is 63536 with a 16-bit `unsigned int` and 4294965296 with a 32-bit one. -/
theorem fall_count_level_11 :
    fall_count 16 11 = 63536 ∧ fall_count 32 11 = 4294965296 ∧
      max (500 : Int) (20000 - 11 * (20000 / 10)) = 500 :=
  ⟨by rfl, by rfl, by decide⟩

/-- C6: the fall interval is not monotonically decreasing: it is 500 at level 10 and
larger at level 11, for a 16-bit and for a 32-bit `unsigned int`. -/
theorem fall_count_not_monotone :
    fall_count 16 10 = 500 ∧ fall_count 16 11 = 63536 ∧
      fall_count 32 10 = 500 ∧ fall_count 32 11 = 4294965296 ∧
      ¬ (fall_count 16 11 ≤ fall_count 16 10) ∧ ¬ (fall_count 32 11 ≤ fall_count 32 10) :=
  ⟨by rfl, by rfl, by rfl, by rfl, by decide, by decide⟩

/-- The floor holds at every level and width: `fall_count` is never below 500. -/
theorem fall_count_ge_500 (w : Nat) (level : Int) : 500 ≤ fall_count w level := by
  unfold fall_count
  simp only
  split <;> omega

/-! ## Random generator -/

/-- C7: with a 32-bit `unsigned int`, `rnd7` replaces the state `s` by
`(s * 1664525 + 1013904223) mod 2^32` and returns `(new state >> 13) mod 7`, an integer
in `[0, 7)`; started from the seed 42 the first output, the first `next_piece`, is 1. -/
theorem rnd7_spec (s : Nat) :
    (rnd7 32 s).1 = (s * 1664525 + 1013904223) % 2 ^ 32 ∧
      (rnd7 32 s).1 < 2 ^ 32 ∧
      (rnd7 32 s).2 = ((((rnd7 32 s).1 >>> 13) % 7 : Nat) : Int) ∧
      0 ≤ (rnd7 32 s).2 ∧ (rnd7 32 s).2 < 7 ∧
      (rnd7 32 42).2 = 1 ∧ (game_start 32).next_piece = 1 := by
  refine ⟨rfl, Nat.mod_lt _ (by norm_num), rfl, ?_, ?_, by decide, by decide⟩
  · simp only [rnd7]; omega
  · simp only [rnd7]; omega

/-! ## Input decoder -/

theorem mask_eq_mod (x : Nat) : x &&& 0x7F = x % 128 :=
  Nat.and_pow_two_sub_one_eq_mod x 7

/-- C8: `get_key` on a first byte and two follow-up reads, every byte taken modulo 128
(bit 7 masked off).  After ESC: a timeout, a byte other than `[`, `[` then a timeout or
`[` then another byte give `KEY_NONE`; `[` then `A`/`B`/`C`/`D` give
Rotate/Drop/Right/Left.  Otherwise `A`/`D`/`W`/`S`/`Q` give Left/Right/Rotate/Drop/Quit and
every other byte gives `KEY_NONE`.  Setting bit 7 of any byte does not change the result. -/
theorem get_key_spec (kbd : Nat) (rd2 rd3 : Option Nat) :
    (kbd % 128 = 0x1B →
      (rd2 = none → get_key kbd rd2 rd3 = KEY_NONE) ∧
      (∀ x, rd2 = some x → x % 128 ≠ 91 → get_key kbd rd2 rd3 = KEY_NONE) ∧
      (∀ x, rd2 = some x → x % 128 = 91 →
        (rd3 = none → get_key kbd rd2 rd3 = KEY_NONE) ∧
        (∀ y, rd3 = some y →
          (y % 128 = 65 → get_key kbd rd2 rd3 = KEY_ROTATE) ∧
          (y % 128 = 66 → get_key kbd rd2 rd3 = KEY_DROP) ∧
          (y % 128 = 67 → get_key kbd rd2 rd3 = KEY_RIGHT) ∧
          (y % 128 = 68 → get_key kbd rd2 rd3 = KEY_LEFT) ∧
          (y % 128 ≠ 65 → y % 128 ≠ 66 → y % 128 ≠ 67 → y % 128 ≠ 68 →
            get_key kbd rd2 rd3 = KEY_NONE)))) ∧
    (kbd % 128 ≠ 0x1B →
      (kbd % 128 = 65 → get_key kbd rd2 rd3 = KEY_LEFT) ∧
      (kbd % 128 = 68 → get_key kbd rd2 rd3 = KEY_RIGHT) ∧
      (kbd % 128 = 87 → get_key kbd rd2 rd3 = KEY_ROTATE) ∧
      (kbd % 128 = 83 → get_key kbd rd2 rd3 = KEY_DROP) ∧
      (kbd % 128 = 81 → get_key kbd rd2 rd3 = KEY_QUIT) ∧
      (kbd % 128 ≠ 65 → kbd % 128 ≠ 68 → kbd % 128 ≠ 87 → kbd % 128 ≠ 83 →
        kbd % 128 ≠ 81 → get_key kbd rd2 rd3 = KEY_NONE)) ∧
    get_key (kbd + 128) rd2 rd3 = get_key kbd rd2 rd3 ∧
    (∀ x, get_key kbd (some (x + 128)) rd3 = get_key kbd (some x) rd3) ∧
    (∀ y, get_key kbd rd2 (some (y + 128)) = get_key kbd rd2 (some y)) := by
  refine ⟨fun h => ⟨?_, ?_, ?_⟩, fun h => ⟨?_, ?_, ?_, ?_, ?_, ?_⟩, ?_, ?_, ?_⟩
  · rintro rfl; simp [get_key, pia_getc, wait_key, mask_eq_mod, h]
  · rintro x rfl hx; simp [get_key, pia_getc, wait_key, mask_eq_mod, h, hx]
  · rintro x rfl hx
    refine ⟨?_, ?_⟩
    · rintro rfl; simp [get_key, pia_getc, wait_key, mask_eq_mod, h, hx]
    · rintro y rfl
      refine ⟨?_, ?_, ?_, ?_, ?_⟩ <;> intros <;>
        simp [get_key, pia_getc, wait_key, mask_eq_mod, h, hx, *]
  all_goals first
    | (intros; simp [get_key, pia_getc, wait_key, mask_eq_mod, h, *])
    | (intros; simp [get_key, pia_getc, wait_key, mask_eq_mod, Nat.add_mod_right])

theorem get_key_spec_witness :
    get_key 0x9B (some 0xDB) (some 0xC1) = KEY_ROTATE :=
  ((((get_key_spec 0x9B (some 0xDB) (some 0xC1)).1 (by decide)).2.2 0xDB rfl (by decide)).2
    0xC1 rfl).1 (by decide)

/-! ## Moving left from the spawn position -/

theorem valid_near_left_edge (k : Int) (hk : 0 ≤ k ∧ k < 7) :
    piece_valid empty_board k 0 0 3 = some 1 ∧ piece_valid empty_board k 0 0 2 = some 1 ∧
      piece_valid empty_board k 0 0 1 = some 1 ∧ piece_valid empty_board k 0 0 0 = some 1 ∧
      piece_valid empty_board k 0 0 (-1) = some 0 := by
  obtain ⟨h0, h1⟩ := hk
  interval_cases k <;> decide

theorem left_accept (fuel : Nat) (g : Game) (c : Int)
    (hv : piece_valid g.board g.cur_piece g.cur_rot g.cur_r (c - 1) = some 1)
    (hc : g.cur_c = c) :
    apply_key fuel KEY_LEFT g = some { g with cur_c := c - 1 } := by
  subst hc
  simp [apply_key, KEY_LEFT, KEY_QUIT, hv]

theorem left_reject (fuel : Nat) (g : Game)
    (hv : piece_valid g.board g.cur_piece g.cur_rot g.cur_r (g.cur_c - 1) = some 0) :
    apply_key fuel KEY_LEFT g = some g := by
  simp [apply_key, KEY_LEFT, KEY_QUIT, hv]

theorem lefts_rejected (fuel : Nat) (g : Game)
    (hv : piece_valid g.board g.cur_piece g.cur_rot g.cur_r (g.cur_c - 1) = some 0) (n : Nat) :
    apply_keys fuel (List.replicate n KEY_LEFT) g = some g := by
  induction n with
  | zero => rfl
  | succ n ih => simp [List.replicate_succ, apply_keys, left_reject fuel g hv, ih]

theorem spawn_col : Int.tdiv COLS 2 - 2 = 3 := by decide

theorem spawn_valid (w : Nat) (g : Game)
    (hv : piece_valid g.board g.next_piece 0 0 3 = some 1) :
    spawn w g = some { g with cur_piece := g.next_piece, rng_state := (rnd7 w g.rng_state).1,
                              next_piece := (rnd7 w g.rng_state).2, cur_rot := 0, cur_r := 0,
                              cur_c := 3 } := by
  simp [spawn, spawn_col, hv]

theorem lefts_from_col3 (fuel : Nat) (g1 : Game) (e1 : g1.board = empty_board)
    (hk : 0 ≤ g1.cur_piece ∧ g1.cur_piece < 7) (e3 : g1.cur_rot = 0) (e4 : g1.cur_r = 0)
    (e5 : g1.cur_c = 3) :
    (∀ n : Nat, n ≤ 3 →
        apply_keys fuel (List.replicate n KEY_LEFT) g1 = some { g1 with cur_c := 3 - n }) ∧
      (∀ n : Nat, 3 ≤ n →
        apply_keys fuel (List.replicate n KEY_LEFT) g1 = some { g1 with cur_c := 0 }) := by
  obtain ⟨-, v2, v1, v0, vm⟩ := valid_near_left_edge g1.cur_piece hk
  have s1 : apply_key fuel KEY_LEFT g1 = some { g1 with cur_c := 2 } :=
    left_accept fuel g1 3 (by rw [e1, e3, e4]; exact v2) e5
  have s2 : apply_key fuel KEY_LEFT { g1 with cur_c := 2 } = some { g1 with cur_c := 1 } :=
    left_accept fuel _ 2 (by simp only [e1, e3, e4]; exact v1) rfl
  have s3 : apply_key fuel KEY_LEFT { g1 with cur_c := 1 } = some { g1 with cur_c := 0 } :=
    left_accept fuel _ 1 (by simp only [e1, e3, e4]; exact v0) rfl
  have s4 : ∀ m : Nat,
      apply_keys fuel (List.replicate m KEY_LEFT) { g1 with cur_c := 0 } =
        some { g1 with cur_c := 0 } :=
    lefts_rejected fuel _ (by simp only [e1, e3, e4]; exact vm)
  have s0 : ({ g1 with cur_c := 3 } : Game) = g1 := by rw [← e5]
  refine ⟨fun n hn => ?_, fun n hn => ?_⟩
  · interval_cases n
    · simp [apply_keys, s0]
    · simp [List.replicate_succ, apply_keys, s1]
    · simp [List.replicate_succ, apply_keys, s1, s2]
    · simp [List.replicate_succ, apply_keys, s1, s2, s3]
  · obtain ⟨m, rfl⟩ : ∃ m, n = m + 3 := ⟨n - 3, by omega⟩
    simp [List.replicate_succ, apply_keys, s1, s2, s3, s4 m]

/-- C10: on the empty board, for every kind in 0..6 queued as `next_piece`, `spawn` places
the piece at row 0, column 3, rotation 0 without raising `game_over`, `piece_valid`
accepts that placement, and Left commands applied in a row move the piece to columns
2, 1, 0 and are rejected from then on: after `n ≤ 3` commands the column is `3 - n`, after
any `n ≥ 3` commands (so after 10) it is 0, and nothing else changes. -/
theorem spawn_then_left (w fuel : Nat) (g : Game) (hb : g.board = empty_board)
    (hk : 0 ≤ g.next_piece ∧ g.next_piece < 7) :
    ∃ g1, spawn w g = some g1 ∧ g1.cur_piece = g.next_piece ∧ g1.cur_rot = 0 ∧
      g1.cur_r = 0 ∧ g1.cur_c = 3 ∧ g1.board = empty_board ∧ g1.game_over = g.game_over ∧
      piece_valid g1.board g1.cur_piece g1.cur_rot g1.cur_r g1.cur_c = some 1 ∧
      (∀ n : Nat, n ≤ 3 →
        apply_keys fuel (List.replicate n KEY_LEFT) g1 = some { g1 with cur_c := 3 - n }) ∧
      (∀ n : Nat, 3 ≤ n →
        apply_keys fuel (List.replicate n KEY_LEFT) g1 = some { g1 with cur_c := 0 }) ∧
      apply_keys fuel (List.replicate 10 KEY_LEFT) g1 = some { g1 with cur_c := 0 } := by
  have v3 := (valid_near_left_edge g.next_piece hk).1
  obtain ⟨g1, hsp, f1, f2, f3, f4, f5, f6⟩ : ∃ g1, spawn w g = some g1 ∧ g1.board = g.board ∧
      g1.cur_piece = g.next_piece ∧ g1.cur_rot = 0 ∧ g1.cur_r = 0 ∧ g1.cur_c = 3 ∧
      g1.game_over = g.game_over :=
    ⟨_, spawn_valid w g (by rw [hb]; exact v3), rfl, rfl, rfl, rfl, rfl, rfl⟩
  have hl := lefts_from_col3 fuel g1 (f1.trans hb) (by rw [f2]; exact hk) f3 f4 f5
  exact ⟨g1, hsp, f2, f3, f4, f5, f1.trans hb, f6, by rw [f1, f2, f3, f4, f5, hb]; exact v3,
    hl.1, hl.2, hl.2 10 (by norm_num)⟩

theorem spawn_then_left_witness :
    ∃ g1, spawn 32 (game_start 32) = some g1 ∧ g1.cur_piece = 1 ∧ g1.cur_rot = 0 ∧
      g1.cur_r = 0 ∧ g1.cur_c = 3 ∧ g1.board = empty_board ∧ g1.game_over = 0 ∧
      piece_valid g1.board g1.cur_piece g1.cur_rot g1.cur_r g1.cur_c = some 1 ∧
      (∀ n : Nat, n ≤ 3 →
        apply_keys 0 (List.replicate n KEY_LEFT) g1 = some { g1 with cur_c := 3 - n }) ∧
      (∀ n : Nat, 3 ≤ n →
        apply_keys 0 (List.replicate n KEY_LEFT) g1 = some { g1 with cur_c := 0 }) ∧
      apply_keys 0 (List.replicate 10 KEY_LEFT) g1 = some { g1 with cur_c := 0 } :=
  spawn_then_left 32 0 (game_start 32) rfl (by decide)

/-! ## Board writes and locking -/

theorem idx_set (α : Type) (l : List α) (n : Nat) (v : α) (i : Int) :
    idx (l.set n v) i = if i = (n : Int) ∧ n < l.length then some v else idx l i := by
  unfold idx
  by_cases h0 : 0 ≤ i
  · obtain ⟨m, rfl⟩ := Int.eq_ofNat_of_zero_le h0
    simp only [h0, if_true, List.getElem?_set, Int.toNat_ofNat, Nat.cast_inj]
    by_cases hn : n = m
    · subst hn
      by_cases hl : n < l.length
      · simp [hl]
      · have : l[n]? = none := List.getElem?_eq_none_iff.2 (by omega)
        simp [hl, this]
    · have hn2 : ¬ m = n := fun h => hn h.symm
      simp [hn, hn2]
  · have hi : i ≠ (n : Int) := by omega
    simp [h0, hi]

theorem upd_some {α : Type} (l : List α) (i : Int) (v : α) (h0 : 0 ≤ i)
    (h1 : i < (l.length : Int)) : upd l i v = some (l.set i.toNat v) := by
  have : i.toNat < l.length := by omega
  simp [upd, h0, this]

theorem board_set_spec (b : Board) (hb : b.WF) (r c v : Int)
    (hin : 0 ≤ r ∧ r < 20 ∧ 0 ≤ c ∧ c < 10) :
    ∃ b2, board_set b r c v = some b2 ∧ b2.WF ∧
      ∀ r2 c2, board_get b2 r2 c2 = if r2 = r ∧ c2 = c then some v else board_get b r2 c2 := by
  obtain ⟨h1, h2, h3, h4⟩ := hin
  obtain ⟨row, hrow⟩ := idx_some_of_lt b r h1 (by rw [hb.1]; exact_mod_cast h2)
  have hlen : row.length = 10 := hb.2 row (idx_mem hrow)
  have hu1 : upd row c v = some (row.set c.toNat v) :=
    upd_some row c v h3 (by rw [hlen]; exact_mod_cast h4)
  have hu2 : upd b r (row.set c.toNat v) = some (b.set r.toNat (row.set c.toNat v)) :=
    upd_some b r _ h1 (by rw [hb.1]; exact_mod_cast h2)
  refine ⟨b.set r.toNat (row.set c.toNat v), by simp [board_set, hrow, hu1, hu2],
    ⟨by simp [hb.1], ?_⟩, fun r2 c2 => ?_⟩
  · intro x hx
    rcases List.mem_or_eq_of_mem_set hx with hx | rfl
    · exact hb.2 x hx
    · simp [hlen]
  · have hrn : r.toNat < b.length := by rw [hb.1]; omega
    have hcn : c.toNat < row.length := by rw [hlen]; omega
    have er : ((r.toNat : Nat) : Int) = r := Int.toNat_of_nonneg h1
    have ec : ((c.toNat : Nat) : Int) = c := Int.toNat_of_nonneg h3
    unfold board_get
    rw [idx_set, er]
    by_cases hr : r2 = r
    · subst hr
      simp only [hrn, and_self, if_true, Option.some_bind, Option.bind_eq_bind, true_and]
      rw [idx_set, ec, hrow]
      by_cases hc : c2 = c
      · simp [hc, hcn]
      · simp [hc]
    · simp [hr]

theorem piece_color_ne_zero (k : Int) (hk : 0 ≤ k ∧ k < 7) :
    ∃ col, idx piece_color k = some col ∧ col ≠ 0 := by
  obtain ⟨h0, h1⟩ := hk
  interval_cases k <;> exact ⟨_, rfl, by decide⟩

theorem piece_lock_loop_spec (k col : Int) (hcol : idx piece_color k = some col)
    (cells : List (Int × Int)) :
    ∀ b : Board, b.WF → (∀ x ∈ cells, 0 ≤ x.1 ∧ x.1 < 20 ∧ 0 ≤ x.2 ∧ x.2 < 10) →
      ∃ b2, piece_lock_loop k b cells = some b2 ∧ b2.WF ∧
        ∀ r c, board_get b2 r c = if (r, c) ∈ cells then some col else board_get b r c := by
  induction cells with
  | nil => intro b hb _; exact ⟨b, rfl, hb, by simp⟩
  | cons hd tl ih =>
    intro b hb hin
    obtain ⟨r0, c0⟩ := hd
    obtain ⟨b1, hset, hwf1, hget1⟩ := board_set_spec b hb r0 c0 col (hin (r0, c0) (by simp))
    obtain ⟨b2, hloop, hwf2, hget2⟩ := ih b1 hwf1 (fun x hx => hin x (List.mem_cons_of_mem _ hx))
    refine ⟨b2, by simp [piece_lock_loop, hcol, hset, hloop], hwf2, fun r c => ?_⟩
    rw [hget2, hget1]
    by_cases h1 : (r, c) ∈ tl
    · simp [h1]
    · by_cases h2 : r = r0 ∧ c = c0
      · simp [h2]
      · have h3 : ¬ ((r, c) = (r0, c0)) := by simpa using h2
        simp [h1, h2, List.mem_cons, h3]

/-- C4: on a 20x10 board, for a kind in 0..6, a rotation in 0..3 and an anchor whose four
cells lie inside the grid, `piece_lock` succeeds, the colour it writes is non-zero, and
`piece_valid` for the same kind, rotation and anchor on the resulting board returns 0. -/
theorem lock_then_invalid (g : Game) (hb : g.board.WF)
    (hk : 0 ≤ g.cur_piece ∧ g.cur_piece < 7) (hr : 0 ≤ g.cur_rot ∧ g.cur_rot < 4)
    (hin : ∀ i : Int, 0 ≤ i → i < 4 → ∃ dr dc, pieces_at g.cur_piece g.cur_rot i 0 = some dr ∧
      pieces_at g.cur_piece g.cur_rot i 1 = some dc ∧
      (0 ≤ g.cur_r + dr ∧ g.cur_r + dr < 20 ∧ 0 ≤ g.cur_c + dc ∧ g.cur_c + dc < 10)) :
    ∃ g2, piece_lock g = some g2 ∧
      (∃ col, idx piece_color g.cur_piece = some col ∧ col ≠ 0) ∧
      piece_valid g2.board g.cur_piece g.cur_rot g.cur_r g.cur_c = some 0 := by
  obtain ⟨col, hcol, hne⟩ := piece_color_ne_zero g.cur_piece hk
  have hcells := piece_cells_eq g.cur_piece g.cur_rot g.cur_r g.cur_c hk hr
  have hall := (mem_offs_map_iff g.cur_piece g.cur_rot g.cur_r g.cur_c hk hr
    (fun x => 0 ≤ x.1 ∧ x.1 < 20 ∧ 0 ≤ x.2 ∧ x.2 < 10)).2 hin
  obtain ⟨b2, hloop, hwf2, hget2⟩ := piece_lock_loop_spec g.cur_piece col hcol _ g.board hb hall
  refine ⟨{ g with board := b2 }, by simp [piece_lock, hcells, hloop], ⟨col, hcol, hne⟩, ?_⟩
  simp only [piece_valid, hcells, Option.some_bind, Option.bind_eq_bind]
  rcases piece_valid_loop_spec b2 hwf2
    ((offs g.cur_piece g.cur_rot).map fun o => (g.cur_r + o.1, g.cur_c + o.2)) with
    ⟨-, hfree⟩ | ⟨h0, -⟩
  · exfalso
    have hlen := (offs_facts g.cur_piece g.cur_rot hk hr).1
    obtain ⟨o, ho⟩ := List.exists_mem_of_length_pos (by rw [hlen]; norm_num :
      0 < (offs g.cur_piece g.cur_rot).length)
    have hm : (g.cur_r + o.1, g.cur_c + o.2) ∈
        (offs g.cur_piece g.cur_rot).map fun o => (g.cur_r + o.1, g.cur_c + o.2) :=
      List.mem_map.2 ⟨o, ho, rfl⟩
    have h1 := (hfree _ hm).2.2.2.2
    rw [hget2, if_pos hm] at h1
    exact hne (Option.some.inj h1)
  · exact h0

theorem lock_then_invalid_witness :
    ∃ g2, piece_lock { game_start 32 with cur_piece := 2, cur_rot := 1, cur_r := 17,
                                          cur_c := 4 } = some g2 ∧
      (∃ col, idx piece_color 2 = some col ∧ col ≠ 0) ∧
      piece_valid g2.board 2 1 17 4 = some 0 :=
  lock_then_invalid { game_start 32 with cur_piece := 2, cur_rot := 1, cur_r := 17, cur_c := 4 }
    (by decide) (by decide) (by decide)
    (fun i h0 h4 => by
      have h : i = 0 ∨ i = 1 ∨ i = 2 ∨ i = 3 := by omega
      rcases h with rfl | rfl | rfl | rfl <;> exact ⟨_, _, rfl, rfl, by decide⟩)

/-! ## Line clear -/

theorem row_full_loop_spec (b : Board) (r : Int) (row : List Int) (hrow : idx b r = some row)
    (cs : List Int) (hcs : ∀ c ∈ cs, 0 ≤ c ∧ c < (row.length : Int)) :
    row_full_loop b r cs = some (if cs.all (fun c => idx row c != some 0) then 1 else 0) := by
  induction cs with
  | nil => rfl
  | cons c cs ih =>
    obtain ⟨v, hv⟩ := idx_some_of_lt row c (hcs c (by simp)).1 (hcs c (by simp)).2
    have ih2 := ih (fun x hx => hcs x (List.mem_cons_of_mem _ hx))
    unfold row_full_loop
    simp only [board_get, hrow, hv, Option.some_bind, Option.bind_eq_bind]
    by_cases hv0 : v = 0
    · subst hv0
      simp [hv]
    · simp [hv0, ih2, hv]

theorem row_full_spec (b : Board) (r : Int) (row : List Int) (hrow : idx b r = some row)
    (hlen : row.length = 10) :
    row_full b r = some (if row_is_full row then 1 else 0) := by
  have h := row_full_loop_spec b r row hrow col_range (by
    rw [hlen]; intro c hc; simp only [col_range, List.mem_cons, List.mem_singleton] at hc
    simp at hc; omega)
  have e : col_range.all (fun c => idx row c != some 0) = row_is_full row := by
    match row, hlen with
    | [a0, a1, a2, a3, a4, a5, a6, a7, a8, a9], _ =>
      rw [Bool.eq_iff_iff]
      simp [col_range, idx, row_is_full, and_assoc]
  rw [row_full, h, e]

theorem shift_down_spec (dst : Nat) :
    ∀ b : Board, dst < b.length → ∃ b2, shift_down dst b = some b2 ∧
      ∀ i : Nat, b2[i]? = if 1 ≤ i ∧ i ≤ dst then b[i - 1]? else b[i]? := by
  induction dst with
  | zero =>
    intro b _
    exact ⟨b, rfl, fun i => by
      have : ¬ (1 ≤ i ∧ i ≤ 0) := by omega
      rw [if_neg this]⟩
  | succ dst ih =>
    intro b hlt
    have h1 : dst < b.length := by omega
    have hsrc : idx b (dst : Int) = some b[dst] := by
      simp [idx, List.getElem?_eq_getElem h1]
    have hupd : upd b ((dst : Int) + 1) b[dst] = some (b.set (dst + 1) b[dst]) := by
      rw [upd_some b _ _ (by omega) (by omega)]
      congr 2
    obtain ⟨b2, hb2, hget⟩ := ih (b.set (dst + 1) b[dst]) (by simpa using h1)
    refine ⟨b2, by simp [shift_down, hsrc, hupd, hb2], fun i => ?_⟩
    rw [hget]
    simp only [List.getElem?_set]
    by_cases hi : 1 ≤ i ∧ i ≤ dst
    · have e1 : ¬ (dst + 1 = i - 1) := by omega
      have e2 : 1 ≤ i ∧ i ≤ dst + 1 := by omega
      simp [hi, e1, e2]
    · by_cases hi2 : i = dst + 1
      · subst hi2
        simp [hlt, List.getElem?_eq_getElem h1]
      · have e1 : ¬ (dst + 1 = i) := fun h => hi2 h.symm
        have e2 : ¬ (1 ≤ i ∧ i ≤ dst + 1) := by omega
        simp [hi, e1, e2]

/-- Removing the full row `r`: the shift loop followed by the `memset` of row 0. -/
theorem remove_row_spec (b : Board) (r : Nat) (hr : r < b.length) :
    ∃ b1, shift_down r b = some b1 ∧ upd b1 0 zero_row = some (zero_row :: b.eraseIdx r) := by
  obtain ⟨b1, h1, hget⟩ := shift_down_spec r b hr
  have hlen : b1.length = b.length := by
    apply Nat.le_antisymm
    · by_contra hc
      have h2 := hget b.length
      have : b1[b.length]? ≠ none := by
        rw [Ne, List.getElem?_eq_none_iff]; omega
      rw [h2] at this
      split at this
      · omega
      · exact this (List.getElem?_eq_none_iff.2 (le_refl _))
    · by_contra hc
      have h2 := hget (b.length - 1)
      have e : b1[b.length - 1]? = none := List.getElem?_eq_none_iff.2 (by omega)
      rw [e] at h2
      split at h2
      · exact absurd (List.getElem?_eq_none_iff.1 h2.symm) (by omega)
      · exact absurd (List.getElem?_eq_none_iff.1 h2.symm) (by omega)
  refine ⟨b1, h1, ?_⟩
  rw [upd_some b1 0 zero_row (le_refl _) (by omega)]
  congr 1
  apply List.ext_getElem?
  intro i
  cases i with
  | zero => simp [List.getElem?_set, show 0 < b1.length by omega]
  | succ i =>
    simp only [Int.toNat_zero, List.getElem?_set, List.getElem?_cons_succ,
      List.getElem?_eraseIdx, hget]
    by_cases hi : i < r
    · have : 1 ≤ i + 1 ∧ i + 1 ≤ r := by omega
      simp [hi, this]
    · have : ¬ (1 ≤ i + 1 ∧ i + 1 ≤ r) := by omega
      simp [hi, this]
      intro h
      omega

theorem zero_row_not_full : row_is_full zero_row = false := by decide

theorem idx_append_length {α : Type} (top rest : List α) (x : α) :
    idx (top ++ x :: rest) (top.length : Int) = some x := by
  simp only [idx, Int.natCast_nonneg, if_true, Int.toNat_ofNat]
  rw [List.getElem?_append_right (le_refl _)]
  simp

/-- The row loop started at the last row of `top`, with the rows of `rest` below already
scanned: it removes the full rows of `top`, keeps the others in order and counts them. -/
theorem clear_lines_loop_spec :
    ∀ (fuel : Nat) (top rest : Board) (cleared : Int),
      (∀ row ∈ top, row.length = 10) → top.length + count_full top + 1 ≤ fuel →
      clear_lines_loop fuel ((top.length : Int) - 1) (top ++ rest) cleared =
        some (List.replicate (count_full top) zero_row ++
              top.filter (fun row => !row_is_full row) ++ rest,
              cleared + (count_full top : Int)) := by
  intro fuel
  induction fuel with
  | zero => intro top rest cleared _ hf; omega
  | succ fuel ih =>
    intro top rest cleared hw hf
    rcases List.eq_nil_or_concat top with rfl | ⟨t, x, hc⟩
    · simp [clear_lines_loop, count_full]
    · rw [List.concat_eq_append] at hc
      subst hc
      have hr : ((t ++ [x]).length : Int) - 1 = (t.length : Int) := by simp
      have hcf : count_full (t ++ [x]) = count_full t + (if row_is_full x then 1 else 0) := by
        simp [count_full, List.countP_append, List.countP_cons]
      have hx : x.length = 10 := hw x (by simp)
      have ht : ∀ row ∈ t, row.length = 10 := fun row h => hw row (by simp [h])
      have hb : t ++ [x] ++ rest = t ++ x :: rest := by simp
      rw [hr, hb]
      unfold clear_lines_loop
      have hge : (t.length : Int) ≥ 0 := by omega
      rw [if_pos hge, row_full_spec _ _ x (idx_append_length t rest x) hx]
      simp only [Option.some_bind, Option.bind_eq_bind]
      by_cases hfull : row_is_full x = true
      · obtain ⟨b1, hs, hu⟩ := remove_row_spec (t ++ x :: rest) t.length (by simp)
        have he : (t ++ x :: rest).eraseIdx t.length = t ++ rest := by
          rw [List.eraseIdx_append_of_length_le (le_refl _)]
          simp
        rw [he] at hu
        have hcz : count_full (zero_row :: t) = count_full t := by
          simp [count_full, List.countP_cons, zero_row_not_full]
        have ih2 := ih (zero_row :: t) rest (cleared + 1)
          (fun row h => by
            rcases List.mem_cons.1 h with rfl | h
            · rfl
            · exact ht row h)
          (by rw [hcz]; rw [hcf, if_pos hfull] at hf; simp at hf ⊢; omega)
        have hr2 : (((zero_row :: t).length : Nat) : Int) - 1 = (t.length : Int) + 1 - 1 := by
          simp
        rw [hr2, hcz] at ih2
        simp only [hfull, if_true, Int.toNat_ofNat, hs, hu, Option.some_bind,
          Option.bind_eq_bind, ne_eq, one_ne_zero, not_false_eq_true]
        rw [show zero_row :: (t ++ rest) = zero_row :: t ++ rest by simp, ih2, hcf, if_pos hfull]
        simp [List.filter_cons, List.filter_append, zero_row_not_full, hfull,
          List.replicate_succ', add_assoc]
        omega
      · have hfull2 : row_is_full x = false := by simpa using hfull
        have ih2 := ih t (x :: rest) cleared ht
          (by rw [hcf, hfull2] at hf; simp at hf ⊢; omega)
        simp only [hfull2, Bool.false_eq_true, if_false, ne_eq, not_true_eq_false]
        rw [ih2, hcf, hfull2]
        simp [List.filter_append, hfull2]

theorem count_full_le (b : Board) : count_full b ≤ b.length := List.countP_le_length _

theorem filter_eq_eraseIdx {α : Type} (p : α → Bool) :
    ∀ (l : List α) (r : Nat), r < l.length →
      (∀ (i : Nat) (x : α), l[i]? = some x → (p x = true ↔ i = r)) →
      l.filter (fun x => !p x) = l.eraseIdx r ∧ l.countP p = 1 := by
  intro l
  induction l with
  | nil => intro r hr; simp at hr
  | cons a l ih =>
    intro r hr h
    cases r with
    | zero =>
      have ha : p a = true := (h 0 a (by simp)).2 rfl
      have hl : ∀ x ∈ l, p x = false := by
        intro x hx
        obtain ⟨n, hn, hget⟩ := List.getElem_of_mem hx
        have := h (n + 1) x (by simp [List.getElem?_eq_getElem hn, hget])
        cases hp : p x
        · rfl
        · exact absurd (this.1 hp) (by omega)
      refine ⟨?_, ?_⟩
      · simp only [List.filter_cons, ha, Bool.not_true, Bool.false_eq_true, if_false,
          List.eraseIdx_cons_zero]
        exact List.filter_eq_self.2 (fun x hx => by simp [hl x hx])
      · rw [List.countP_cons_of_pos _ _ ha, List.countP_eq_zero.2 (fun x hx => by simp [hl x hx])]
    | succ r =>
      have ha : p a = false := by
        cases hp : p a
        · rfl
        · exact absurd ((h 0 a (by simp)).1 hp) (by omega)
      obtain ⟨h1, h2⟩ := ih r (by simpa using hr) (fun i x hx => by
        have := h (i + 1) x (by simpa using hx)
        rw [this]; omega)
      refine ⟨?_, ?_⟩
      · simp [List.filter_cons, ha, h1]
      · rw [List.countP_cons_of_neg _ _ (by simp [ha]), h2]

theorem clear_lines_loop_full (b : Board) (hb : b.WF) (fuel : Nat) (hfuel : 41 ≤ fuel) :
    clear_lines_loop fuel (ROWS - 1) b 0 =
      some (List.replicate (count_full b) zero_row ++ b.filter (fun row => !row_is_full row),
            (count_full b : Int)) := by
  have h := clear_lines_loop_spec fuel b [] 0 hb.2 (by
    have := count_full_le b
    rw [hb.1] at this ⊢
    omega)
  rw [hb.1] at h
  simpa [ROWS] using h

/-- C2: for every 20x10 board and enough fuel (41 steps suffice) the row loop of
`clear_lines` ends with `k` zero rows on top followed by the non-full rows of the original
board in their order, and with `cleared = k`, where `k` is the number of full rows.  In
particular, if row `r` is the only full row, the new row 0 is zero, new rows `1..r` are the
old rows `0..r-1`, the rows below `r` are unchanged and `cleared = 1`. -/
theorem clear_lines_loop_compacts (b : Board) (hb : b.WF) (fuel : Nat) (hfuel : 41 ≤ fuel) :
    clear_lines_loop fuel (ROWS - 1) b 0 =
        some (List.replicate (count_full b) zero_row ++ b.filter (fun row => !row_is_full row),
              (count_full b : Int)) ∧
      ∀ r : Nat, r < 20 → (∀ (i : Nat) (row : List Int), b[i]? = some row →
          (row_is_full row = true ↔ i = r)) →
        ∃ b2, clear_lines_loop fuel (ROWS - 1) b 0 = some (b2, 1) ∧
          b2[0]? = some zero_row ∧
          (∀ i : Nat, 1 ≤ i → i ≤ r → b2[i]? = b[i - 1]?) ∧
          (∀ i : Nat, r < i → i < 20 → b2[i]? = b[i]?) := by
  have hmain := clear_lines_loop_full b hb fuel hfuel
  refine ⟨hmain, fun r hr hone => ?_⟩
  obtain ⟨h1, h2⟩ := filter_eq_eraseIdx row_is_full b r (by rw [hb.1]; exact hr) hone
  have hk : count_full b = 1 := h2
  refine ⟨zero_row :: b.eraseIdx r, ?_, by simp, fun i hi1 hi2 => ?_, fun i hi1 hi2 => ?_⟩
  · rw [hmain, hk, h1]; rfl
  · obtain ⟨j, rfl⟩ : ∃ j, i = j + 1 := ⟨i - 1, by omega⟩
    rw [List.getElem?_cons_succ, List.getElem?_eraseIdx_of_lt _ _ _ (by omega)]
    simp
  · obtain ⟨j, rfl⟩ : ∃ j, i = j + 1 := ⟨i - 1, by omega⟩
    rw [List.getElem?_cons_succ, List.getElem?_eraseIdx_of_ge _ _ _ (by omega)]

theorem clear_lines_loop_compacts_witness :
    ∃ b2, clear_lines_loop 41 (ROWS - 1) sample_board 0 = some (b2, 1) ∧
      b2[0]? = some zero_row ∧
      (∀ i : Nat, 1 ≤ i → i ≤ 18 → b2[i]? = sample_board[i - 1]?) ∧
      (∀ i : Nat, 18 < i → i < 20 → b2[i]? = sample_board[i]?) :=
  (clear_lines_loop_compacts sample_board (by decide) 41 (by decide)).2 18 (by decide)
    (fun i row h => by
      have hi : i < 20 := by
        by_contra hc
        have : sample_board[i]? = none := List.getElem?_eq_none_iff.2 (by
          have : sample_board.length = 20 := by decide
          omega)
        rw [this] at h
        exact absurd h (by simp)
      interval_cases i <;> (cases Option.some.inj h; decide))

/-! ## Arithmetic of `int` -/

theorem int_wrap_of_fits (iw : Option Nat) (x : Int) (h : int_fits iw x) :
    int_wrap iw x = x := by
  cases iw with
  | none => rfl
  | some n =>
    simp only [int_fits] at h
    simp only [int_wrap]
    generalize (2 : Int) ^ n = m at h ⊢
    rw [Int.emod_eq_of_lt (by omega) (by omega)]
    omega

theorem int_wrap_modEq (n : Nat) (x : Int) : int_wrap (some n) x ≡ x [ZMOD 2 ^ n] := by
  simp only [int_wrap]
  have h := (Int.mod_modEq (x + 2 ^ n / 2) (2 ^ n)).sub_right (2 ^ n / 2)
  rwa [add_sub_cancel_right] at h

theorem int_wrap_congr (n : Nat) (a b : Int) (h : a ≡ b [ZMOD 2 ^ n]) :
    int_wrap (some n) a = int_wrap (some n) b := by
  simp only [int_wrap]
  have h2 : (a + 2 ^ n / 2) % 2 ^ n = (b + 2 ^ n / 2) % 2 ^ n := h.add_right (2 ^ n / 2)
  rw [h2]

/-- The three wrapping operations of `score += pts[cleared] * (level + 1)` amount to one
reduction of the mathematical result. -/
theorem int_wrap_score (iw : Option Nat) (s p l : Int) :
    int_wrap iw (s + int_wrap iw (p * int_wrap iw (l + 1))) = int_wrap iw (s + p * (l + 1)) := by
  cases iw with
  | none => rfl
  | some n =>
    apply int_wrap_congr
    exact Int.ModEq.add_left s
      ((int_wrap_modEq n _).trans ((int_wrap_modEq n (l + 1)).mul_left p))

/-! ## Scoring -/

/-- The outcome of `clear_lines` on a board with at most 4 full rows. -/
theorem clear_lines_some (iw : Option Nat) (g : Game) (hb : g.board.WF) (fuel : Nat)
    (hfuel : 41 ≤ fuel) (hk4 : count_full g.board ≤ 4) :
    ∃ g2 p, clear_lines iw fuel g = some g2 ∧ idx pts (count_full g.board : Int) = some p ∧
      0 ≤ p ∧
      g2.board = List.replicate (count_full g.board) zero_row ++
        g.board.filter (fun row => !row_is_full row) ∧
      g2.lines = (if count_full g.board = 0 then g.lines
        else int_wrap iw (g.lines + count_full g.board)) ∧
      g2.score = (if count_full g.board = 0 then g.score
        else int_wrap iw (g.score + p * (g.level + 1))) ∧
      g2.level = (if count_full g.board = 0 then g.level
        else Int.tdiv (int_wrap iw (g.lines + count_full g.board)) 10) ∧
      g2.cur_piece = g.cur_piece ∧ g2.cur_rot = g.cur_rot ∧ g2.cur_r = g.cur_r ∧
      g2.cur_c = g.cur_c ∧ g2.next_piece = g.next_piece ∧ g2.game_over = g.game_over ∧
      g2.rng_state = g.rng_state := by
  have hloop := clear_lines_loop_full g.board hb fuel hfuel
  generalize count_full g.board = k at hloop hk4 ⊢
  obtain ⟨p, hp, hp0⟩ : ∃ p, idx pts (k : Int) = some p ∧ 0 ≤ p := by
    interval_cases k <;> exact ⟨_, rfl, by decide⟩
  by_cases hk0 : k = 0
  · subst hk0
    have hcl : clear_lines iw fuel g = some
        { g with board := List.replicate 0 zero_row ++
                   g.board.filter (fun row => !row_is_full row) } := by
      simp [clear_lines, hloop]
    exact ⟨_, p, hcl, hp, hp0, rfl, by simp, by simp, by simp, rfl, rfl, rfl, rfl, rfl, rfl, rfl⟩
  · have hk1 : ¬ ((k : Int) = 0) := by omega
    have hcl : clear_lines iw fuel g = some
        { g with board := List.replicate k zero_row ++
                   g.board.filter (fun row => !row_is_full row),
                 lines := int_wrap iw (g.lines + k),
                 score := int_wrap iw (g.score + p * (g.level + 1)),
                 level := Int.tdiv (int_wrap iw (g.lines + k)) 10 } := by
      simp [clear_lines, hloop, hk1, hp, int_wrap_score]
    exact ⟨_, p, hcl, hp, hp0, rfl, by simp [hk0], by simp [hk0], by simp [hk0], rfl, rfl,
      rfl, rfl, rfl, rfl, rfl⟩

/-- C3 (as stated, refuted): with a 16-bit `int`, on a board with exactly one full row, a
score of 32700 at level 2 becomes -32536 and not 32700 + 100 * (2 + 1) = 33000; with a
32-bit `int` a score of 2147483600 becomes -2147483396. -/
theorem clear_lines_score_overflow :
    sample_locked.board.WF ∧ count_full sample_locked.board = 1 ∧ idx pts 1 = some 100 ∧
      (sample_locked.lines, sample_locked.level) = (25, 2) ∧
      (clear_lines (some 16) 41 { sample_locked with score := 32700 }).map
        (fun g => (g.lines, g.score)) = some (26, -32536) ∧
      (clear_lines (some 32) 41 { sample_locked with score := 2147483600 }).map
        (fun g => (g.lines, g.score)) = some (26, -2147483396) := by
  refine ⟨by decide, by decide, by decide, by decide, by rfl, by rfl⟩

/-- C3 (amended): for every state whose 20x10 board has exactly `k` full rows,
`1 ≤ k ≤ 4`, any width of `int` and enough fuel (41 steps suffice), `clear_lines` stores
in `lines` and `score` the values `lines + k` and `score + pts[k] * (level + 1)` reduced
to the width of `int`, `level` being the value before the call and
`pts = [0, 100, 300, 500, 800]`, and then sets `level` to the quotient of the new `lines`
by 10.  Whenever the new value is representable in `int`, `lines` has increased by exactly
`k` and `score` by exactly `pts[k] * (level + 1)`. -/
theorem clear_lines_score (iw : Option Nat) (g : Game) (hb : g.board.WF) (fuel : Nat)
    (hfuel : 41 ≤ fuel) (k : Nat) (hk : count_full g.board = k) (hk1 : 1 ≤ k) (hk4 : k ≤ 4) :
    ∃ g2 p, clear_lines iw fuel g = some g2 ∧
      pts = [0, 100, 300, 500, 800] ∧ idx pts (k : Int) = some p ∧
      g2.lines = int_wrap iw (g.lines + k) ∧
      g2.score = int_wrap iw (g.score + p * (g.level + 1)) ∧
      g2.level = Int.tdiv g2.lines 10 ∧
      (int_fits iw (g.lines + k) → g2.lines = g.lines + k) ∧
      (int_fits iw (g.score + p * (g.level + 1)) →
        g2.score = g.score + p * (g.level + 1)) := by
  obtain ⟨g2, p, hcl, hp, -, -, hlines, hscore, hlevel, -⟩ :=
    clear_lines_some iw g hb fuel hfuel (by omega)
  rw [hk] at hp hlines hscore hlevel
  have hk0 : ¬ (k = 0) := by omega
  rw [if_neg hk0] at hlines hscore hlevel
  exact ⟨g2, p, hcl, rfl, hp, hlines, hscore, by rw [hlevel, hlines],
    fun hf => by rw [hlines, int_wrap_of_fits iw _ hf],
    fun hf => by rw [hscore, int_wrap_of_fits iw _ hf]⟩

theorem clear_lines_score_witness :
    piece_lock sample_game = some sample_locked ∧
      ∃ g2, clear_lines (some 16) 41 sample_locked = some g2 ∧
        g2.lines = 25 + 1 ∧ g2.score = 1234 + 100 * (2 + 1) ∧ g2.level = 2 := by
  obtain ⟨g2, p, h1, -, hp, -, -, h4, h5, h6⟩ :=
    clear_lines_score (some 16) sample_locked (by decide) 41 (by decide) 1 (by decide)
      (by decide) (by decide)
  have hp100 : p = 100 := Option.some.inj (hp.symm.trans (by decide))
  subst hp100
  have hl : g2.lines = 25 + 1 := h5 (by decide)
  refine ⟨by decide, g2, h1, hl, h6 (by decide), ?_⟩
  rw [h4, hl]
  decide

/-! ## Validity of a placement, in terms of the offsets -/

theorem piece_valid_cases (b : Board) (hb : b.WF) (k r pr pc : Int)
    (hk : 0 ≤ k ∧ k < 7) (hr : 0 ≤ r ∧ r < 4) :
    (piece_valid b k r pr pc = some 1 ∧ ∀ o ∈ offs k r, cell_free b (pr + o.1, pc + o.2)) ∨
      (piece_valid b k r pr pc = some 0 ∧ ∃ o ∈ offs k r, ¬ cell_free b (pr + o.1, pc + o.2)) := by
  simp only [piece_valid, piece_cells_eq k r pr pc hk hr, Option.some_bind, Option.bind_eq_bind]
  rcases piece_valid_loop_spec b hb ((offs k r).map fun o => (pr + o.1, pc + o.2)) with
    ⟨h1, h2⟩ | ⟨h1, c, hc, h2⟩
  · exact Or.inl ⟨h1, fun o ho => h2 _ (List.mem_map.2 ⟨o, ho, rfl⟩)⟩
  · obtain ⟨o, ho, rfl⟩ := List.mem_map.1 hc
    exact Or.inr ⟨h1, o, ho, h2⟩

theorem piece_valid_one_iff (b : Board) (hb : b.WF) (k r pr pc : Int)
    (hk : 0 ≤ k ∧ k < 7) (hr : 0 ≤ r ∧ r < 4) :
    piece_valid b k r pr pc = some 1 ↔ ∀ o ∈ offs k r, cell_free b (pr + o.1, pc + o.2) := by
  rcases piece_valid_cases b hb k r pr pc hk hr with ⟨h1, h2⟩ | ⟨h1, o, ho, h2⟩
  · exact ⟨fun _ => h2, fun _ => h1⟩
  · refine ⟨fun h => ?_, fun h => absurd (h o ho) h2⟩
    rw [h1] at h
    exact absurd h (by decide)

theorem piece_valid_zero_or_one (b : Board) (hb : b.WF) (k r pr pc : Int)
    (hk : 0 ≤ k ∧ k < 7) (hr : 0 ≤ r ∧ r < 4) :
    piece_valid b k r pr pc = some 0 ∨ piece_valid b k r pr pc = some 1 := by
  rcases piece_valid_cases b hb k r pr pc hk hr with ⟨h1, -⟩ | ⟨h1, -⟩
  · exact Or.inr h1
  · exact Or.inl h1

theorem offs_nonempty (k r : Int) (hk : 0 ≤ k ∧ k < 7) (hr : 0 ≤ r ∧ r < 4) :
    ∃ o, o ∈ offs k r := by
  have hlen := (offs_facts k r hk hr).1
  exact List.exists_mem_of_length_pos (by rw [hlen]; norm_num)

theorem mem_cells_iff (k r pr pc : Int) (hk : 0 ≤ k ∧ k < 7) (hr : 0 ≤ r ∧ r < 4)
    (x : Int × Int) :
    x ∈ (offs k r).map (fun o => (pr + o.1, pc + o.2)) ↔
      ∃ i : Int, 0 ≤ i ∧ i < 4 ∧ ∃ dr dc, pieces_at k r i 0 = some dr ∧
        pieces_at k r i 1 = some dc ∧ x = (pr + dr, pc + dc) := by
  obtain ⟨hlen, -, -, hidx⟩ := offs_facts k r hk hr
  constructor
  · intro hx
    obtain ⟨o, ho, rfl⟩ := List.mem_map.1 hx
    obtain ⟨n, hn, hget⟩ := List.getElem_of_mem ho
    obtain ⟨o2, ho2, h3, h4⟩ := hidx n (by omega) (by omega)
    have : o2 = o := by
      simp only [idx, Int.toNat_ofNat, Int.natCast_nonneg, if_true] at ho2
      rw [List.getElem?_eq_getElem hn, hget] at ho2
      exact (Option.some.inj ho2).symm
    subst this
    exact ⟨n, by omega, by omega, o2.1, o2.2, h3, h4, rfl⟩
  · rintro ⟨i, h0, h4, dr, dc, h1, h2, rfl⟩
    obtain ⟨o, ho, h5, h6⟩ := hidx i h0 h4
    rw [h1] at h5; rw [h2] at h6
    rw [Option.some.inj h5, Option.some.inj h6]
    exact List.mem_map.2 ⟨o, idx_mem ho, rfl⟩

/-! ## Spawn -/

theorem rot0_rows (k : Int) (hk : 0 ≤ k ∧ k < 7) :
    ∀ o ∈ offs k 0, (o.1 = 0 ∨ o.1 = 1) ∧ 0 ≤ o.2 ∧ o.2 ≤ 3 := by
  obtain ⟨h0, h1⟩ := hk
  interval_cases k <;> decide

theorem spawn_invalid (w : Nat) (g : Game)
    (hv : piece_valid g.board g.next_piece 0 0 3 = some 0) :
    spawn w g = some { g with cur_piece := g.next_piece, rng_state := (rnd7 w g.rng_state).1,
                              next_piece := (rnd7 w g.rng_state).2, cur_rot := 0, cur_r := 0,
                              cur_c := 3, game_over := 1 } := by
  simp [spawn, spawn_col, hv]

theorem spawn_aux (w : Nat) (g : Game) (hb : g.board.WF)
    (hk : 0 ≤ g.next_piece ∧ g.next_piece < 7) :
    ∃ g2 v, spawn w g = some g2 ∧ piece_valid g.board g.next_piece 0 0 3 = some v ∧
      (v = 0 ∨ v = 1) ∧
      g2.cur_piece = g.next_piece ∧ g2.cur_rot = 0 ∧ g2.cur_r = 0 ∧ g2.cur_c = 3 ∧
      g2.next_piece = (rnd7 w g.rng_state).2 ∧ g2.rng_state = (rnd7 w g.rng_state).1 ∧
      g2.board = g.board ∧ g2.score = g.score ∧ g2.lines = g.lines ∧ g2.level = g.level ∧
      (v = 0 → g2.game_over = 1) ∧ (v = 1 → g2.game_over = g.game_over) ∧
      ((∀ c : Int, 0 ≤ c → c < 10 →
          (∃ x, board_get g.board 0 c = some x ∧ x ≠ 0) ∧
          (∃ x, board_get g.board 1 c = some x ∧ x ≠ 0)) → v = 0 ∧ g2.game_over = 1) := by
  rcases piece_valid_cases g.board hb g.next_piece 0 0 3 hk (by decide) with
    ⟨h1, hfree⟩ | ⟨h0, -⟩
  · refine ⟨_, 1, spawn_valid w g h1, h1, Or.inr rfl, rfl, rfl, rfl, rfl, rfl, rfl, rfl, rfl,
      rfl, rfl, fun h => absurd h (by decide), fun _ => rfl, fun hocc => ?_⟩
    exfalso
    obtain ⟨o, ho⟩ := offs_nonempty g.next_piece 0 hk (by decide)
    obtain ⟨hrow, hc0, hc3⟩ := rot0_rows g.next_piece hk o ho
    have hf := (hfree o ho).2.2.2.2
    obtain ⟨⟨x0, hx0, hne0⟩, ⟨x1, hx1, hne1⟩⟩ := hocc (3 + o.2) (by omega) (by omega)
    rcases hrow with hrow | hrow
    · rw [hrow] at hf
      simp only [zero_add, add_zero] at hf
      rw [hx0] at hf
      exact hne0 (Option.some.inj hf)
    · rw [hrow] at hf
      simp only [zero_add] at hf
      rw [hx1] at hf
      exact hne1 (Option.some.inj hf)
  · have hsp := spawn_invalid w g h0
    exact ⟨_, 0, hsp, h0, Or.inl rfl, rfl, rfl, rfl, rfl, rfl, rfl, rfl, rfl, rfl, rfl,
      fun _ => rfl, fun h => absurd h (by decide), fun _ => ⟨rfl, rfl⟩⟩

/-- C11: on a 20x10 board with `next_piece` in 0..6, `spawn` makes the previous
`next_piece` the active kind with rotation 0 at row 0, column 3, draws a new `next_piece`
from `rnd7`, leaves the board and the score state alone, and sets `game_over` to 1 exactly
when `piece_valid` returns 0 for that placement (otherwise `game_over` keeps its value).  If
every cell of rows 0 and 1 is occupied, `piece_valid` returns 0 and `game_over` is set. -/
theorem spawn_spec (w : Nat) (g : Game) (hb : g.board.WF)
    (hk : 0 ≤ g.next_piece ∧ g.next_piece < 7) :
    ∃ g2 v, spawn w g = some g2 ∧ piece_valid g.board g.next_piece 0 0 3 = some v ∧
      (v = 0 ∨ v = 1) ∧
      g2.cur_piece = g.next_piece ∧ g2.cur_rot = 0 ∧ g2.cur_r = 0 ∧ g2.cur_c = 3 ∧
      g2.next_piece = (rnd7 w g.rng_state).2 ∧ g2.rng_state = (rnd7 w g.rng_state).1 ∧
      g2.board = g.board ∧ g2.score = g.score ∧ g2.lines = g.lines ∧ g2.level = g.level ∧
      (v = 0 → g2.game_over = 1) ∧ (v = 1 → g2.game_over = g.game_over) ∧
      ((∀ c : Int, 0 ≤ c → c < 10 →
          (∃ x, board_get g.board 0 c = some x ∧ x ≠ 0) ∧
          (∃ x, board_get g.board 1 c = some x ∧ x ≠ 0)) → v = 0 ∧ g2.game_over = 1) :=
  spawn_aux w g hb hk

theorem spawn_spec_witness :
    ∃ g2, spawn 16 top_full_game = some g2 ∧ g2.cur_piece = 4 ∧ g2.cur_rot = 0 ∧
      g2.cur_r = 0 ∧ g2.cur_c = 3 ∧ top_full_game.game_over = 0 ∧ g2.game_over = 1 := by
  obtain ⟨g2, v, h1, -, -, h2, h3, h4, h5, -, -, -, -, -, -, -, -, hocc⟩ :=
    spawn_spec 16 top_full_game (by decide) (by decide)
  refine ⟨g2, h1, h2, h3, h4, h5, rfl, (hocc fun c h0 h10 => ?_).2⟩
  interval_cases c <;> exact ⟨⟨36, rfl, by decide⟩, ⟨36, rfl, by decide⟩⟩

/-! ## Move and rotate commands -/

theorem apply_key_left (fuel : Nat) (g : Game) (v : Int)
    (hv : piece_valid g.board g.cur_piece g.cur_rot g.cur_r (g.cur_c - 1) = some v) :
    apply_key fuel KEY_LEFT g = some (if v ≠ 0 then { g with cur_c := g.cur_c - 1 } else g) := by
  by_cases h : v = 0 <;> simp [apply_key, KEY_LEFT, KEY_QUIT, hv, h]

theorem apply_key_right (fuel : Nat) (g : Game) (v : Int)
    (hv : piece_valid g.board g.cur_piece g.cur_rot g.cur_r (g.cur_c + 1) = some v) :
    apply_key fuel KEY_RIGHT g = some (if v ≠ 0 then { g with cur_c := g.cur_c + 1 } else g) := by
  by_cases h : v = 0 <;> simp [apply_key, KEY_RIGHT, KEY_LEFT, KEY_QUIT, hv, h]

theorem apply_key_rotate (fuel : Nat) (g : Game) (v : Int)
    (hv : piece_valid g.board g.cur_piece (Int.tmod (g.cur_rot + 1) 4) g.cur_r g.cur_c = some v) :
    apply_key fuel KEY_ROTATE g =
      some (if v ≠ 0 then { g with cur_rot := Int.tmod (g.cur_rot + 1) 4 } else g) := by
  by_cases h : v = 0 <;> simp [apply_key, KEY_ROTATE, KEY_RIGHT, KEY_LEFT, KEY_QUIT, hv, h]

theorem apply_key_quit (fuel : Nat) (g : Game) :
    apply_key fuel KEY_QUIT g = some { g with game_over := 1 } := by
  simp [apply_key]

theorem apply_key_none (fuel : Nat) (g : Game) : apply_key fuel KEY_NONE g = some g := by
  simp [apply_key, KEY_NONE, KEY_DROP, KEY_ROTATE, KEY_RIGHT, KEY_LEFT, KEY_QUIT]

theorem next_rot (rot : Int) (hr : 0 ≤ rot ∧ rot < 4) :
    Int.tmod (rot + 1) 4 = (rot + 1) % 4 ∧ 0 ≤ Int.tmod (rot + 1) 4 ∧ Int.tmod (rot + 1) 4 < 4 := by
  have h : Int.tmod (rot + 1) 4 = (rot + 1) % 4 :=
    Int.tmod_eq_emod (by omega) (by decide)
  rw [h]
  omega

/-- C13: on a 20x10 board with the active kind in 0..6 and rotation in 0..3, for each of
Left, Right and Rotate the test `piece_valid` on the target placement (column - 1,
column + 1, rotation `(rot + 1) mod 4`) returns 0 or 1; when it returns 0 the command
leaves the whole state unchanged, when it returns 1 only the column, respectively the
rotation, takes the new value.  The None command changes nothing. -/
theorem move_commands (fuel : Nat) (g : Game) (hb : g.board.WF)
    (hk : 0 ≤ g.cur_piece ∧ g.cur_piece < 7) (hr : 0 ≤ g.cur_rot ∧ g.cur_rot < 4) :
    (∃ v, piece_valid g.board g.cur_piece g.cur_rot g.cur_r (g.cur_c - 1) = some v ∧
      (v = 0 ∨ v = 1) ∧ (v = 0 → apply_key fuel KEY_LEFT g = some g) ∧
      (v = 1 → apply_key fuel KEY_LEFT g = some { g with cur_c := g.cur_c - 1 })) ∧
    (∃ v, piece_valid g.board g.cur_piece g.cur_rot g.cur_r (g.cur_c + 1) = some v ∧
      (v = 0 ∨ v = 1) ∧ (v = 0 → apply_key fuel KEY_RIGHT g = some g) ∧
      (v = 1 → apply_key fuel KEY_RIGHT g = some { g with cur_c := g.cur_c + 1 })) ∧
    (∃ v, piece_valid g.board g.cur_piece ((g.cur_rot + 1) % 4) g.cur_r g.cur_c = some v ∧
      (v = 0 ∨ v = 1) ∧ (v = 0 → apply_key fuel KEY_ROTATE g = some g) ∧
      (v = 1 → apply_key fuel KEY_ROTATE g = some { g with cur_rot := (g.cur_rot + 1) % 4 })) ∧
    apply_key fuel KEY_NONE g = some g ∧ key_step fuel none g = some g := by
  obtain ⟨hn1, hn2, hn3⟩ := next_rot g.cur_rot hr
  refine ⟨?_, ?_, ?_, apply_key_none fuel g, rfl⟩
  · rcases piece_valid_zero_or_one g.board hb g.cur_piece g.cur_rot g.cur_r (g.cur_c - 1) hk hr
      with h | h
    · exact ⟨0, h, Or.inl rfl, fun _ => by rw [apply_key_left fuel g 0 h]; simp,
        fun h1 => absurd h1 (by decide)⟩
    · exact ⟨1, h, Or.inr rfl, fun h1 => absurd h1 (by decide),
        fun _ => by rw [apply_key_left fuel g 1 h]; simp⟩
  · rcases piece_valid_zero_or_one g.board hb g.cur_piece g.cur_rot g.cur_r (g.cur_c + 1) hk hr
      with h | h
    · exact ⟨0, h, Or.inl rfl, fun _ => by rw [apply_key_right fuel g 0 h]; simp,
        fun h1 => absurd h1 (by decide)⟩
    · exact ⟨1, h, Or.inr rfl, fun h1 => absurd h1 (by decide),
        fun _ => by rw [apply_key_right fuel g 1 h]; simp⟩
  · rw [← hn1]
    rcases piece_valid_zero_or_one g.board hb g.cur_piece (Int.tmod (g.cur_rot + 1) 4)
      g.cur_r g.cur_c hk ⟨hn2, hn3⟩ with h | h
    · exact ⟨0, h, Or.inl rfl, fun _ => by rw [apply_key_rotate fuel g 0 h]; simp,
        fun h1 => absurd h1 (by decide)⟩
    · exact ⟨1, h, Or.inr rfl, fun h1 => absurd h1 (by decide),
        fun _ => by rw [apply_key_rotate fuel g 1 h]; simp⟩

theorem move_commands_witness :
    apply_key 0 KEY_LEFT mid_game = some { mid_game with cur_c := -1 - 1 } ∧
      apply_key 0 KEY_RIGHT mid_game = some { mid_game with cur_c := -1 + 1 } ∧
      apply_key 0 KEY_ROTATE mid_game = some mid_game ∧
      apply_key 0 KEY_NONE mid_game = some mid_game := by
  obtain ⟨⟨v1, h1, -, -, a1⟩, ⟨v2, h2, -, -, a2⟩, ⟨v3, h3, -, a3, -⟩, a4, -⟩ :=
    move_commands 0 mid_game (by decide) (by decide) (by decide)
  have e1 : v1 = 1 := Option.some.inj (h1.symm.trans (by decide))
  have e2 : v2 = 1 := Option.some.inj (h2.symm.trans (by decide))
  have e3 : v3 = 0 := Option.some.inj (h3.symm.trans (by decide))
  exact ⟨a1 e1, a2 e2, a3 e3, a4⟩

/-! ## Level -/

theorem countP_set_le {α : Type} (p : α → Bool) (x : α) :
    ∀ (l : List α) (n : Nat), (l.set n x).countP p ≤ l.countP p + 1 := by
  intro l
  induction l with
  | nil => intro n; simp
  | cons a l ih =>
    intro n
    cases n with
    | zero =>
      simp only [List.set_cons_zero, List.countP_cons]
      split <;> split <;> omega
    | succ n =>
      have := ih n
      simp only [List.set_cons_succ, List.countP_cons]
      split <;> omega

theorem board_set_count (b b2 : Board) (r c v : Int) (h : board_set b r c v = some b2) :
    count_full b2 ≤ count_full b + 1 := by
  unfold board_set at h
  cases hrow : idx b r with
  | none => simp [hrow] at h
  | some row =>
    simp only [hrow, Option.some_bind, Option.bind_eq_bind] at h
    cases hu : upd row c v with
    | none => simp [hu] at h
    | some row2 =>
      rw [hu] at h
      simp only [Option.some_bind, upd] at h
      split at h
      · rw [← Option.some.inj h]
        exact countP_set_le row_is_full row2 b r.toNat
      · exact absurd h (by simp)

theorem piece_lock_loop_count (k : Int) (cells : List (Int × Int)) :
    ∀ b b2 : Board, piece_lock_loop k b cells = some b2 →
      count_full b2 ≤ count_full b + cells.length := by
  induction cells with
  | nil =>
    intro b b2 h
    cases Option.some.inj h
    simp
  | cons hd tl ih =>
    intro b b2 h
    obtain ⟨r0, c0⟩ := hd
    unfold piece_lock_loop at h
    cases hc : idx piece_color k with
    | none => simp [hc] at h
    | some col =>
      simp only [hc, Option.some_bind, Option.bind_eq_bind] at h
      cases hs : board_set b r0 c0 col with
      | none => simp [hs] at h
      | some b1 =>
        simp only [hs, Option.some_bind] at h
        have h1 := board_set_count b b1 r0 c0 col hs
        have h2 := ih b1 b2 h
        simp only [List.length_cons]
        omega

/-- The outcome of `piece_lock` when the four cells of the active piece are in the grid. -/
theorem piece_lock_some (g : Game) (hb : g.board.WF)
    (hk : 0 ≤ g.cur_piece ∧ g.cur_piece < 7) (hr : 0 ≤ g.cur_rot ∧ g.cur_rot < 4)
    (hin : ∀ o ∈ offs g.cur_piece g.cur_rot,
      0 ≤ g.cur_r + o.1 ∧ g.cur_r + o.1 < 20 ∧ 0 ≤ g.cur_c + o.2 ∧ g.cur_c + o.2 < 10) :
    ∃ b2 col, piece_lock g = some { g with board := b2 } ∧
      idx piece_color g.cur_piece = some col ∧ col ≠ 0 ∧ b2.WF ∧
      count_full b2 ≤ count_full g.board + 4 ∧
      ∀ r c, board_get b2 r c =
        if (r, c) ∈ (offs g.cur_piece g.cur_rot).map (fun o => (g.cur_r + o.1, g.cur_c + o.2))
        then some col else board_get g.board r c := by
  obtain ⟨col, hcol, hne⟩ := piece_color_ne_zero g.cur_piece hk
  have hcells := piece_cells_eq g.cur_piece g.cur_rot g.cur_r g.cur_c hk hr
  have hall : ∀ x ∈ (offs g.cur_piece g.cur_rot).map
      (fun o => (g.cur_r + o.1, g.cur_c + o.2)), 0 ≤ x.1 ∧ x.1 < 20 ∧ 0 ≤ x.2 ∧ x.2 < 10 := by
    intro x hx
    obtain ⟨o, ho, rfl⟩ := List.mem_map.1 hx
    exact hin o ho
  obtain ⟨b2, hloop, hwf2, hget2⟩ := piece_lock_loop_spec g.cur_piece col hcol _ g.board hb hall
  have hcount := piece_lock_loop_count g.cur_piece _ g.board b2 hloop
  rw [List.length_map, (offs_facts g.cur_piece g.cur_rot hk hr).1] at hcount
  exact ⟨b2, col, by simp [piece_lock, hcells, hloop], hcol, hne, hwf2, hcount, hget2⟩

/-- C18: on a 20x10 board, for a kind in 0..6, a rotation in 0..3 and an anchor whose four
cells lie inside the grid, `piece_lock` writes `piece_color[cur_piece]` into exactly the
four cells `(cur_r + pieces[k][r][i][0], cur_c + pieces[k][r][i][1])`, leaves every other
board cell as it was, and changes no other variable. -/
theorem piece_lock_frame (g : Game) (hb : g.board.WF)
    (hk : 0 ≤ g.cur_piece ∧ g.cur_piece < 7) (hr : 0 ≤ g.cur_rot ∧ g.cur_rot < 4)
    (hin : ∀ i : Int, 0 ≤ i → i < 4 → ∃ dr dc, pieces_at g.cur_piece g.cur_rot i 0 = some dr ∧
      pieces_at g.cur_piece g.cur_rot i 1 = some dc ∧
      (0 ≤ g.cur_r + dr ∧ g.cur_r + dr < 20 ∧ 0 ≤ g.cur_c + dc ∧ g.cur_c + dc < 10)) :
    ∃ g2 col, piece_lock g = some g2 ∧ idx piece_color g.cur_piece = some col ∧
      g2.board.WF ∧
      (∀ r c : Int, (∃ i : Int, 0 ≤ i ∧ i < 4 ∧ ∃ dr dc,
          pieces_at g.cur_piece g.cur_rot i 0 = some dr ∧
          pieces_at g.cur_piece g.cur_rot i 1 = some dc ∧ r = g.cur_r + dr ∧ c = g.cur_c + dc) →
        board_get g2.board r c = some col) ∧
      (∀ r c : Int, ¬ (∃ i : Int, 0 ≤ i ∧ i < 4 ∧ ∃ dr dc,
          pieces_at g.cur_piece g.cur_rot i 0 = some dr ∧
          pieces_at g.cur_piece g.cur_rot i 1 = some dc ∧ r = g.cur_r + dr ∧ c = g.cur_c + dc) →
        board_get g2.board r c = board_get g.board r c) ∧
      g2.cur_piece = g.cur_piece ∧ g2.cur_rot = g.cur_rot ∧ g2.cur_r = g.cur_r ∧
      g2.cur_c = g.cur_c ∧ g2.next_piece = g.next_piece ∧ g2.score = g.score ∧
      g2.lines = g.lines ∧ g2.level = g.level ∧ g2.game_over = g.game_over ∧
      g2.rng_state = g.rng_state := by
  have hall := (mem_offs_map_iff g.cur_piece g.cur_rot g.cur_r g.cur_c hk hr
    (fun x => 0 ≤ x.1 ∧ x.1 < 20 ∧ 0 ≤ x.2 ∧ x.2 < 10)).2 hin
  obtain ⟨b2, col, hlock, hcol, -, hwf, -, hget⟩ := piece_lock_some g hb hk hr
    (fun o ho => hall _ (List.mem_map.2 ⟨o, ho, rfl⟩))
  have hmem := fun r c => mem_cells_iff g.cur_piece g.cur_rot g.cur_r g.cur_c hk hr (r, c)
  refine ⟨_, col, hlock, hcol, hwf, fun r c hc => ?_, fun r c hc => ?_,
    rfl, rfl, rfl, rfl, rfl, rfl, rfl, rfl, rfl, rfl⟩
  · have : (r, c) ∈ (offs g.cur_piece g.cur_rot).map
        (fun o => (g.cur_r + o.1, g.cur_c + o.2)) := by
      rw [hmem]
      obtain ⟨i, h0, h4, dr, dc, h1, h2, rfl, rfl⟩ := hc
      exact ⟨i, h0, h4, dr, dc, h1, h2, rfl⟩
    show board_get b2 r c = some col
    rw [hget, if_pos this]
  · have : ¬ (r, c) ∈ (offs g.cur_piece g.cur_rot).map
        (fun o => (g.cur_r + o.1, g.cur_c + o.2)) := by
      rw [hmem]
      rintro ⟨i, h0, h4, dr, dc, h1, h2, h3⟩
      exact hc ⟨i, h0, h4, dr, dc, h1, h2, (Prod.mk.inj h3).1, (Prod.mk.inj h3).2⟩
    show board_get b2 r c = board_get g.board r c
    rw [hget, if_neg this]

theorem piece_lock_frame_witness :
    ∃ g2 col, piece_lock sample_game = some g2 ∧ idx piece_color 0 = some col ∧
      board_get g2.board 16 1 = some col ∧
      board_get g2.board 16 2 = board_get sample_game.board 16 2 ∧
      g2.score = 1234 ∧ g2.next_piece = 4 := by
  obtain ⟨g2, col, h1, h2, -, h3, h4, -, -, -, -, h5, h6, -⟩ :=
    piece_lock_frame sample_game (by decide) (by decide) (by decide)
      (fun i h0 h4 => by
        have h : i = 0 ∨ i = 1 ∨ i = 2 ∨ i = 3 := by omega
        rcases h with rfl | rfl | rfl | rfl <;> exact ⟨_, _, rfl, rfl, by decide⟩)
  refine ⟨g2, col, h1, h2, h3 16 1 ⟨0, by decide, by decide, 0, 2, rfl, rfl, rfl, rfl⟩,
    h4 16 2 ?_, h6, h5⟩
  rintro ⟨i, h0, h4, dr, dc, e1, e2, e3, e4⟩
  have h : i = 0 ∨ i = 1 ∨ i = 2 ∨ i = 3 := by omega
  rcases h with rfl | rfl | rfl | rfl <;>
    · have e5 : some dc = some 2 := e2.symm.trans rfl
      cases Option.some.inj e5
      exact absurd e4 (by decide)

/-! ## Hard drop -/

theorem valid_row_bounds (b : Board) (hb : b.WF) (k r pr pc : Int)
    (hk : 0 ≤ k ∧ k < 7) (hr : 0 ≤ r ∧ r < 4) (hv : piece_valid b k r pr pc = some 1) :
    -3 ≤ pr ∧ pr ≤ 19 := by
  obtain ⟨o, ho⟩ := offs_nonempty k r hk hr
  have hf := (piece_valid_one_iff b hb k r pr pc hk hr).1 hv o ho
  have hb := (offs_facts k r hk hr).2.2.1 o ho
  simp only [cell_free] at hf
  omega

theorem drop_loop_spec (fuel : Nat) :
    ∀ g : Game, g.board.WF → (0 ≤ g.cur_piece ∧ g.cur_piece < 7) →
      (0 ≤ g.cur_rot ∧ g.cur_rot < 4) →
      piece_valid g.board g.cur_piece g.cur_rot g.cur_r g.cur_c = some 1 →
      21 ≤ (fuel : Int) + g.cur_r →
      ∃ r2, drop_loop fuel g = some { g with cur_r := r2 } ∧ g.cur_r ≤ r2 ∧
        (∀ ρ, g.cur_r ≤ ρ → ρ ≤ r2 →
          piece_valid g.board g.cur_piece g.cur_rot ρ g.cur_c = some 1) ∧
        piece_valid g.board g.cur_piece g.cur_rot (r2 + 1) g.cur_c = some 0 := by
  induction fuel with
  | zero =>
    intro g hb hk hr hv hf
    have := valid_row_bounds g.board hb _ _ _ _ hk hr hv
    omega
  | succ fuel ih =>
    intro g hb hk hr hv hf
    rcases piece_valid_zero_or_one g.board hb g.cur_piece g.cur_rot (g.cur_r + 1) g.cur_c hk hr
      with h0 | h1
    · refine ⟨g.cur_r, by simp [drop_loop, h0], le_refl _, fun ρ h1 h2 => ?_, h0⟩
      have : ρ = g.cur_r := by omega
      rw [this]; exact hv
    · obtain ⟨r2, hd, hle, hall, hend⟩ := ih { g with cur_r := g.cur_r + 1 } hb hk hr h1
        (by simp only [Nat.cast_succ] at hf; show 21 ≤ (fuel : Int) + (g.cur_r + 1); omega)
      refine ⟨r2, by simpa [drop_loop, h1] using hd, ?_, fun ρ h2 h3 => ?_, hend⟩
      · have : g.cur_r + 1 ≤ r2 := hle
        omega
      · by_cases he : ρ = g.cur_r
        · rw [he]; exact hv
        · exact hall ρ (by show g.cur_r + 1 ≤ ρ; omega) h3

theorem hard_drop_aux (fuel : Nat) (hfuel : 24 ≤ fuel) (g : Game) (hb : g.board.WF)
    (hk : 0 ≤ g.cur_piece ∧ g.cur_piece < 7) (hr : 0 ≤ g.cur_rot ∧ g.cur_rot < 4)
    (hv : piece_valid g.board g.cur_piece g.cur_rot g.cur_r g.cur_c = some 1) :
    ∃ r2, apply_key fuel KEY_DROP g = some { g with cur_r := r2 } ∧ g.cur_r ≤ r2 ∧
      (∀ ρ, g.cur_r ≤ ρ → ρ ≤ r2 →
        piece_valid g.board g.cur_piece g.cur_rot ρ g.cur_c = some 1) ∧
      piece_valid g.board g.cur_piece g.cur_rot (r2 + 1) g.cur_c = some 0 := by
  have hrow := valid_row_bounds g.board hb _ _ _ _ hk hr hv
  obtain ⟨r2, hd, hrest⟩ := drop_loop_spec fuel g hb hk hr hv (by omega)
  refine ⟨r2, ?_, hrest⟩
  rw [← hd]
  simp [apply_key, KEY_DROP, KEY_ROTATE, KEY_RIGHT, KEY_LEFT, KEY_QUIT]

/-- C16: on a 20x10 board with the active kind in 0..6, rotation in 0..3 and a valid
placement at row `cur_r`, the Drop command with enough fuel (24 steps suffice) terminates
and only changes `cur_r`, to a row `r2 ≥ cur_r` such that the placement is valid at every
row from `cur_r` to `r2` and invalid at row `r2 + 1`; the piece is not locked: board,
score, lines, level and every other variable keep their values. -/
theorem hard_drop (fuel : Nat) (hfuel : 24 ≤ fuel) (g : Game) (hb : g.board.WF)
    (hk : 0 ≤ g.cur_piece ∧ g.cur_piece < 7) (hr : 0 ≤ g.cur_rot ∧ g.cur_rot < 4)
    (hv : piece_valid g.board g.cur_piece g.cur_rot g.cur_r g.cur_c = some 1) :
    ∃ r2, apply_key fuel KEY_DROP g = some { g with cur_r := r2 } ∧ g.cur_r ≤ r2 ∧
      (∀ ρ, g.cur_r ≤ ρ → ρ ≤ r2 →
        piece_valid g.board g.cur_piece g.cur_rot ρ g.cur_c = some 1) ∧
      piece_valid g.board g.cur_piece g.cur_rot (r2 + 1) g.cur_c = some 0 :=
  hard_drop_aux fuel hfuel g hb hk hr hv

theorem hard_drop_witness :
    ∃ r2, apply_key 24 KEY_DROP mid_game = some { mid_game with cur_r := r2 } ∧
      mid_game.cur_r ≤ r2 ∧
      (∀ ρ, mid_game.cur_r ≤ ρ → ρ ≤ r2 →
        piece_valid mid_game.board mid_game.cur_piece mid_game.cur_rot ρ mid_game.cur_c =
          some 1) ∧
      piece_valid mid_game.board mid_game.cur_piece mid_game.cur_rot (r2 + 1) mid_game.cur_c =
        some 0 :=
  hard_drop 24 (by decide) mid_game (by decide) (by decide) (by decide) (by decide)

/-! ## Line clear on an arbitrary board -/

/-- The board left by the row loop is a 20x10 board without full rows. -/
theorem cleared_board_props (b : Board) (hb : b.WF) :
    Board.WF (List.replicate (count_full b) zero_row ++
        b.filter (fun row => !row_is_full row)) ∧
      count_full (List.replicate (count_full b) zero_row ++
        b.filter (fun row => !row_is_full row)) = 0 := by
  refine ⟨⟨?_, ?_⟩, ?_⟩
  · have h1 := List.length_eq_countP_add_countP (p := row_is_full) b
    have h2 : List.countP (fun a => decide ¬ row_is_full a = true) b =
        (b.filter (fun row => !row_is_full row)).length := by
      rw [List.countP_eq_length_filter]
      congr 2
      funext a
      cases row_is_full a <;> rfl
    rw [List.length_append, List.length_replicate, ← h2]
    unfold count_full
    rw [← hb.1]
    omega
  · intro row hrow
    rcases List.mem_append.1 hrow with h | h
    · rw [(List.mem_replicate.1 h).2]; rfl
    · exact hb.2 row (List.mem_filter.1 h).1
  · unfold count_full
    rw [List.countP_eq_zero]
    intro row hrow
    rcases List.mem_append.1 hrow with h | h
    · rw [(List.mem_replicate.1 h).2, zero_row_not_full]; simp
    · have := (List.mem_filter.1 h).2
      simpa using this

/-- C15 (as stated, refuted): on the board whose 20 rows are all full the row loop ends
with the empty board and `cleared = 20`, the lookup `pts[20]` is outside the 5-entry table,
and `clear_lines` does not complete. -/
theorem clear_lines_full_board :
    full_board.WF ∧ count_full full_board = 20 ∧
      clear_lines_loop 41 (ROWS - 1) full_board 0 = some (empty_board, 20) ∧
      idx pts 20 = none ∧ clear_lines (some 16) 41 full_game = none ∧
      clear_lines none 41 full_game = none := by
  refine ⟨by decide, by decide, by decide, by decide, by decide, by decide⟩

/-- C15 (amended): for every 20x10 board and enough fuel (41 steps suffice) the row loop of
`clear_lines` terminates with a 20x10 board without full rows and with `cleared` equal to
the number of full rows of the original board.  When that number is at most 4,
`clear_lines` completes for every width of `int`, every table access being in range,
leaves no full row and adds the number to `lines` (in `int` arithmetic: exactly, whenever
the sum is representable).  When it is more than 4, the lookup `pts[cleared]` is outside
the table. -/
theorem clear_lines_tolerance (iw : Option Nat) (g : Game) (hb : g.board.WF) (fuel : Nat)
    (hfuel : 41 ≤ fuel) :
    (∃ b2, clear_lines_loop fuel (ROWS - 1) g.board 0 = some (b2, (count_full g.board : Int)) ∧
      b2.WF ∧ count_full b2 = 0) ∧
    (count_full g.board ≤ 4 →
      ∃ g2 p, clear_lines iw fuel g = some g2 ∧ idx pts (count_full g.board : Int) = some p ∧
        g2.board.WF ∧ count_full g2.board = 0 ∧
        g2.lines = (if count_full g.board = 0 then g.lines
          else int_wrap iw (g.lines + count_full g.board)) ∧
        (int_fits iw (g.lines + count_full g.board) →
          g2.lines = g.lines + count_full g.board)) ∧
    (4 < count_full g.board →
      idx pts (count_full g.board : Int) = none ∧ clear_lines iw fuel g = none) := by
  have hloop := clear_lines_loop_full g.board hb fuel hfuel
  obtain ⟨hwf, hcf⟩ := cleared_board_props g.board hb
  refine ⟨⟨_, hloop, hwf, hcf⟩, fun h4 => ?_, fun h4 => ?_⟩
  · obtain ⟨g2, p, hcl, hp, -, hboard, hlines, -⟩ := clear_lines_some iw g hb fuel hfuel h4
    refine ⟨g2, p, hcl, hp, by rw [hboard]; exact hwf, by rw [hboard]; exact hcf, hlines,
      fun hf => ?_⟩
    rw [hlines]
    split
    · rename_i h0
      rw [h0]; simp
    · exact int_wrap_of_fits iw _ hf
  · have hnone : idx pts (count_full g.board : Int) = none := by
      rw [idx_eq_none_iff]
      right
      show ((5 : Nat) : Int) ≤ _
      omega
    have hk0 : ¬ ((count_full g.board : Int) = 0) := by omega
    exact ⟨hnone, by simp [clear_lines, hloop, hk0, hnone]⟩

theorem clear_lines_tolerance_witness :
    (∃ b2, clear_lines_loop 41 (ROWS - 1) sample_locked.board 0 =
        some (b2, (count_full sample_locked.board : Int)) ∧ b2.WF ∧ count_full b2 = 0) ∧
    (∃ g2 p, clear_lines (some 16) 41 sample_locked = some g2 ∧
        idx pts (count_full sample_locked.board : Int) = some p ∧
        g2.board.WF ∧ count_full g2.board = 0 ∧
        g2.lines = sample_locked.lines + count_full sample_locked.board) := by
  obtain ⟨h1, h2, -⟩ := clear_lines_tolerance (some 16) sample_locked (by decide) 41 (by decide)
  obtain ⟨g2, p, a1, a2, a3, a4, -, a6⟩ := h2 (by decide)
  exact ⟨h1, g2, p, a1, a2, a3, a4, a6 (by decide)⟩

/-! ## The loop invariant -/

theorem loop_start16 : loop_start 16 = some start_loop16 := by decide

theorem rnd7_range (w s : Nat) : 0 ≤ (rnd7 w s).2 ∧ (rnd7 w s).2 < 7 := by
  simp only [rnd7]
  omega

theorem base_of_frame (g g1 : Game) (hb : Base g) (hf : Frame g g1)
    (hr : 0 ≤ g1.cur_rot ∧ g1.cur_rot < 4) : Base g1 := by
  obtain ⟨f1, f2, f3, -⟩ := hf
  obtain ⟨b1, b2, b3, b4, -⟩ := hb
  exact ⟨by rw [f1]; exact b1, by rw [f1]; exact b2, by rw [f2]; exact b3,
    by rw [f3]; exact b4, hr⟩

theorem frame_refl (g : Game) : Frame g g := ⟨rfl, rfl, rfl, rfl, rfl, rfl, rfl⟩

theorem frame_of_eq (g g1 : Game) (h1 : g1.board = g.board) (h2 : g1.cur_piece = g.cur_piece)
    (h3 : g1.next_piece = g.next_piece) (h4 : g1.score = g.score) (h5 : g1.lines = g.lines)
    (h6 : g1.level = g.level) (h7 : g1.rng_state = g.rng_state) : Frame g g1 :=
  ⟨h1, h2, h3, h4, h5, h6, h7⟩

/-- The key handling keeps the invariant and the validity of the active piece. -/
theorem apply_key_inv (fuel : Nat) (hfuel : 24 ≤ fuel) (ch : Nat) (g : Game)
    (hb : Base g) (hv : Valid g) :
    ∃ g1, apply_key fuel ch g = some g1 ∧ Base g1 ∧ Valid g1 ∧ Frame g g1 := by
  have b1 := hb.1
  have b3 := hb.2.2.1
  have b5 := hb.2.2.2.2
  by_cases hq : ch = KEY_QUIT
  · subst hq
    have hf : Frame g { g with game_over := 1 } := frame_of_eq _ _ rfl rfl rfl rfl rfl rfl rfl
    exact ⟨{ g with game_over := 1 }, apply_key_quit fuel g, base_of_frame g _ hb hf b5, hv, hf⟩
  by_cases hl : ch = KEY_LEFT
  · subst hl
    rcases piece_valid_zero_or_one g.board b1 g.cur_piece g.cur_rot g.cur_r (g.cur_c - 1) b3 b5
      with h | h
    · exact ⟨g, by rw [apply_key_left fuel g 0 h]; simp, hb, hv, frame_refl g⟩
    · have hf : Frame g { g with cur_c := g.cur_c - 1 } :=
        frame_of_eq _ _ rfl rfl rfl rfl rfl rfl rfl
      exact ⟨{ g with cur_c := g.cur_c - 1 }, by rw [apply_key_left fuel g 1 h]; simp,
        base_of_frame g _ hb hf b5, h, hf⟩
  by_cases hr : ch = KEY_RIGHT
  · subst hr
    rcases piece_valid_zero_or_one g.board b1 g.cur_piece g.cur_rot g.cur_r (g.cur_c + 1) b3 b5
      with h | h
    · exact ⟨g, by rw [apply_key_right fuel g 0 h]; simp, hb, hv, frame_refl g⟩
    · have hf : Frame g { g with cur_c := g.cur_c + 1 } :=
        frame_of_eq _ _ rfl rfl rfl rfl rfl rfl rfl
      exact ⟨{ g with cur_c := g.cur_c + 1 }, by rw [apply_key_right fuel g 1 h]; simp,
        base_of_frame g _ hb hf b5, h, hf⟩
  by_cases ho : ch = KEY_ROTATE
  · subst ho
    obtain ⟨-, hn2, hn3⟩ := next_rot g.cur_rot b5
    rcases piece_valid_zero_or_one g.board b1 g.cur_piece (Int.tmod (g.cur_rot + 1) 4)
      g.cur_r g.cur_c b3 ⟨hn2, hn3⟩ with h | h
    · exact ⟨g, by rw [apply_key_rotate fuel g 0 h]; simp, hb, hv, frame_refl g⟩
    · have hf : Frame g { g with cur_rot := Int.tmod (g.cur_rot + 1) 4 } :=
        frame_of_eq _ _ rfl rfl rfl rfl rfl rfl rfl
      exact ⟨{ g with cur_rot := Int.tmod (g.cur_rot + 1) 4 },
        by rw [apply_key_rotate fuel g 1 h]; simp, base_of_frame g _ hb hf ⟨hn2, hn3⟩, h, hf⟩
  by_cases hd : ch = KEY_DROP
  · subst hd
    obtain ⟨r2, h1, h2, h3, -⟩ := hard_drop_aux fuel hfuel g b1 b3 b5 hv
    have hf : Frame g { g with cur_r := r2 } := frame_of_eq _ _ rfl rfl rfl rfl rfl rfl rfl
    exact ⟨{ g with cur_r := r2 }, h1, base_of_frame g _ hb hf b5, h3 r2 h2 (le_refl _), hf⟩
  · exact ⟨g, by simp [apply_key, hq, hl, hr, ho, hd], hb, hv, frame_refl g⟩

theorem key_step_inv (fuel : Nat) (hfuel : 24 ≤ fuel)
    (inp : Option (Nat × Option Nat × Option Nat)) (g : Game) (hb : Base g) (hv : Valid g) :
    ∃ g1, key_step fuel inp g = some g1 ∧ Base g1 ∧ Valid g1 ∧ Frame g g1 := by
  cases inp with
  | none => exact ⟨g, rfl, hb, hv, frame_refl g⟩
  | some x =>
    obtain ⟨kbd, rd2, rd3⟩ := x
    exact apply_key_inv fuel hfuel _ g hb hv

/-- The piece can be locked where it stands, the locked board has at most 4 full rows,
the lookup `pts[cleared]` is in range and `clear_lines` completes. -/
theorem lock_at_fall (iw : Option Nat) (fuel : Nat) (hfuel : 41 ≤ fuel) (g : Game)
    (hb : Base g) (hv : Valid g) :
    ∃ gl gc p, piece_lock g = some gl ∧ gl.board.WF ∧ count_full gl.board ≤ 4 ∧
      idx pts (count_full gl.board : Int) = some p ∧ 0 ≤ p ∧
      clear_lines iw fuel gl = some gc ∧ gc.board.WF ∧ count_full gc.board = 0 ∧
      gc.lines = (if count_full gl.board = 0 then g.lines
        else int_wrap iw (g.lines + count_full gl.board)) ∧
      gc.score = (if count_full gl.board = 0 then g.score
        else int_wrap iw (g.score + p * (g.level + 1))) ∧
      gc.level = (if count_full gl.board = 0 then g.level
        else Int.tdiv (int_wrap iw (g.lines + count_full gl.board)) 10) ∧
      gc.next_piece = g.next_piece ∧ gc.game_over = g.game_over ∧
      gc.rng_state = g.rng_state := by
  obtain ⟨b1, b2, b3, -, b5⟩ := hb
  have hfree := (piece_valid_one_iff g.board b1 _ _ _ _ b3 b5).1 hv
  obtain ⟨bl, col, hlock, -, -, hwf, hcount, -⟩ := piece_lock_some g b1 b3 b5
    (fun o ho => by
      have := hfree o ho
      simp only [cell_free] at this
      exact ⟨this.1, this.2.1, this.2.2.1, this.2.2.2.1⟩)
  rw [b2, zero_add] at hcount
  obtain ⟨gc, p, hcl, hp, hp0, hboard, hlines, hscore, hlevel, -, -, -, -, hnext, hgo, hrng⟩ :=
    clear_lines_some iw { g with board := bl } hwf fuel hfuel hcount
  obtain ⟨hwfc, hcfc⟩ := cleared_board_props bl hwf
  exact ⟨{ g with board := bl }, gc, p, hlock, hwf, hcount, hp, hp0, hcl,
    by rw [hboard]; exact hwfc, by rw [hboard]; exact hcfc, hlines, hscore, hlevel, hnext,
    hgo, hrng⟩

/-- The fall step keeps the invariant; it either moves the piece one row down or locks
it, clears lines and spawns. -/
theorem fall_step_inv (w : Nat) (iw : Option Nat) (fuel : Nat) (hfuel : 41 ≤ fuel) (g : Game)
    (hb : Base g) (hv : Valid g) :
    ∃ g2, fall_step w iw fuel g = some g2 ∧ Base g2 ∧ (g2.game_over = 0 → Valid g2) ∧
      ((g2.lines = g.lines ∧ g2.score = g.score ∧ g2.level = g.level) ∨
        ∃ gl p, piece_lock g = some gl ∧ idx pts (count_full gl.board : Int) = some p ∧
          0 ≤ p ∧
          g2.lines = (if count_full gl.board = 0 then g.lines
            else int_wrap iw (g.lines + count_full gl.board)) ∧
          g2.score = (if count_full gl.board = 0 then g.score
            else int_wrap iw (g.score + p * (g.level + 1))) ∧
          g2.level = (if count_full gl.board = 0 then g.level
            else Int.tdiv (int_wrap iw (g.lines + count_full gl.board)) 10)) := by
  have b1 := hb.1
  have b3 := hb.2.2.1
  have b4 := hb.2.2.2.1
  have b5 := hb.2.2.2.2
  rcases piece_valid_zero_or_one g.board b1 g.cur_piece g.cur_rot (g.cur_r + 1) g.cur_c b3 b5
    with h | h
  · obtain ⟨gl, gc, p, hlock, -, hk4, hp, hp0, hcl, hwfc, hcfc, hlines, hscore, hlevel, hnext,
      -, -⟩ := lock_at_fall iw fuel hfuel g hb hv
    obtain ⟨g2, v, hsp, hval, -, s1, s2, s3, s4, s5, -, s7, s8, s9, s10, s11, -, -⟩ :=
      spawn_aux w gc hwfc (by rw [hnext]; exact b4)
    refine ⟨g2, by simp [fall_step, h, hlock, hcl, hsp], ?_, fun hgo => ?_, Or.inr ?_⟩
    · exact ⟨by rw [s7]; exact hwfc, by rw [s7]; exact hcfc, by rw [s1, hnext]; exact b4,
        by rw [s5]; exact rnd7_range w gc.rng_state, by rw [s2]; decide⟩
    · have hv1 : v = 1 := by
        by_contra hne
        have hv0 : v = 0 := by
          rcases piece_valid_zero_or_one gc.board hwfc gc.next_piece 0 0 3
            (by rw [hnext]; exact b4) (by decide) with h0 | h1
          · exact Option.some.inj (hval.symm.trans h0)
          · exact absurd (Option.some.inj (hval.symm.trans h1)) hne
        rw [s11 hv0] at hgo
        exact absurd hgo (by decide)
      show piece_valid g2.board g2.cur_piece g2.cur_rot g2.cur_r g2.cur_c = some 1
      rw [s7, s1, s2, s3, s4, hval, hv1]
    · exact ⟨gl, p, hlock, hp, hp0, by rw [s9, hlines], by rw [s8, hscore],
        by rw [s10, hlevel]⟩
  · have hf : Frame g { g with cur_r := g.cur_r + 1 } :=
      frame_of_eq _ _ rfl rfl rfl rfl rfl rfl rfl
    exact ⟨{ g with cur_r := g.cur_r + 1 }, by simp [fall_step, h], base_of_frame g _ hb hf b5,
      fun _ => h, Or.inl ⟨rfl, rfl, rfl⟩⟩

/-- One iteration entered with the invariant and a valid piece completes, for every width
of `int`, and keeps the invariant; the score state is either untouched or updated by the
`clear_lines` call that follows a lock. -/
theorem main_iter_inv (w : Nat) (iw : Option Nat) (fuel : Nat) (hfuel : 41 ≤ fuel)
    (inp : Option (Nat × Option Nat × Option Nat)) (s : Loop) (hb : Base s.g)
    (hv : Valid s.g) :
    ∃ s2, main_iter w iw fuel inp s = some s2 ∧ Base s2.g ∧
      (s2.g.game_over = 0 → Valid s2.g) ∧
      ((s2.g.lines = s.g.lines ∧ s2.g.score = s.g.score ∧ s2.g.level = s.g.level) ∨
        ∃ g1 gl p, key_step fuel inp s.g = some g1 ∧ piece_lock g1 = some gl ∧
          idx pts (count_full gl.board : Int) = some p ∧ 0 ≤ p ∧
          s2.g.lines = (if count_full gl.board = 0 then s.g.lines
            else int_wrap iw (s.g.lines + count_full gl.board)) ∧
          s2.g.score = (if count_full gl.board = 0 then s.g.score
            else int_wrap iw (s.g.score + p * (s.g.level + 1))) ∧
          s2.g.level = (if count_full gl.board = 0 then s.g.level
            else Int.tdiv (int_wrap iw (s.g.lines + count_full gl.board)) 10)) := by
  obtain ⟨g1, hkey, hb1, hv1, hf⟩ := key_step_inv fuel (by omega) inp s.g hb hv
  obtain ⟨-, -, -, f4, f5, f6, -⟩ := hf
  by_cases hc : (s.counter + 1) % 2 ^ w ≥ s.fall_limit
  · obtain ⟨g2, hfall, hb2, hv2, hres⟩ := fall_step_inv w iw fuel hfuel g1 hb1 hv1
    refine ⟨{ g := g2, counter := 0, fall_limit := fall_count w g1.level },
      by simp [main_iter, hkey, hc, hfall], hb2, hv2, ?_⟩
    rcases hres with ⟨h1, h2, h3⟩ | ⟨gl, p, hlock, hp, hp0, h1, h2, h3⟩
    · exact Or.inl ⟨h1.trans f5, h2.trans f4, h3.trans f6⟩
    · rw [f5] at h1
      rw [f4, f6] at h2
      rw [f5, f6] at h3
      exact Or.inr ⟨g1, gl, p, hkey, hlock, hp, hp0, h1, h2, h3⟩
  · exact ⟨{ g := g1, counter := (s.counter + 1) % 2 ^ w, fall_limit := s.fall_limit },
      by simp [main_iter, hkey, hc], hb1, fun _ => hv1, Or.inl ⟨f5, f4, f6⟩⟩

/-- Every reachable loop head satisfies the invariant, and its active piece is valid as
long as `game_over` is 0; this holds for every width of `int`. -/
theorem reachable_inv (w : Nat) (iw : Option Nat) (fuel : Nat) (hfuel : 41 ≤ fuel) (s : Loop)
    (h : Reachable w iw fuel s) : Base s.g ∧ (s.g.game_over = 0 → Valid s.g) := by
  induction h with
  | start s hs =>
    have hk := rnd7_range w 42
    have hv3 := (valid_near_left_edge (rnd7 w 42).2 hk).1
    have hsp := spawn_valid w (game_start w) hv3
    simp only [loop_start, hsp, Option.some_bind, Option.bind_eq_bind] at hs
    rw [← Option.some.inj hs]
    have hwf : empty_board.WF := by decide
    have hcf : count_full empty_board = 0 := by decide
    have hrot : (0 : Int) ≤ 0 ∧ (0 : Int) < 4 := by decide
    exact ⟨⟨hwf, hcf, hk, rnd7_range w _, hrot⟩, fun _ => hv3⟩
  | step s s2 inp _ hgo hiter ih =>
    obtain ⟨s3, h3, hb3, hv3, -⟩ := main_iter_inv w iw fuel hfuel inp s ih.1 (ih.2 hgo)
    rw [hiter] at h3
    rw [Option.some.inj h3]
    exact ⟨hb3, hv3⟩

/-- C19: for every width of `int`, in every reachable state with `game_over = 0` at the
head of the main loop, `cur_piece` and `next_piece` are in 0..6, `cur_rot` is in 0..3 and
`piece_valid` accepts the active placement; and for any keyboard input the state after
the key handling, on which the fall step would call `piece_lock`, has the same board and
four piece cells that are inside the grid and empty on that board. -/
theorem active_piece_well_formed (w : Nat) (iw : Option Nat) (fuel : Nat) (hfuel : 41 ≤ fuel)
    (s : Loop) (hreach : Reachable w iw fuel s) (hgo : s.g.game_over = 0) :
    (0 ≤ s.g.cur_piece ∧ s.g.cur_piece < 7) ∧ (0 ≤ s.g.next_piece ∧ s.g.next_piece < 7) ∧
      (0 ≤ s.g.cur_rot ∧ s.g.cur_rot < 4) ∧
      piece_valid s.g.board s.g.cur_piece s.g.cur_rot s.g.cur_r s.g.cur_c = some 1 ∧
      ∀ inp, ∃ g1, key_step fuel inp s.g = some g1 ∧ g1.board = s.g.board ∧
        ∀ i : Int, 0 ≤ i → i < 4 → ∃ dr dc,
          pieces_at g1.cur_piece g1.cur_rot i 0 = some dr ∧
          pieces_at g1.cur_piece g1.cur_rot i 1 = some dc ∧
          0 ≤ g1.cur_r + dr ∧ g1.cur_r + dr < 20 ∧ 0 ≤ g1.cur_c + dc ∧ g1.cur_c + dc < 10 ∧
          board_get g1.board (g1.cur_r + dr) (g1.cur_c + dc) = some 0 := by
  obtain ⟨hb, hv⟩ := reachable_inv w iw fuel hfuel s hreach
  refine ⟨hb.2.2.1, hb.2.2.2.1, hb.2.2.2.2, hv hgo, fun inp => ?_⟩
  obtain ⟨g1, hkey, hb1, hv1, hf⟩ := key_step_inv fuel (by omega) inp s.g hb (hv hgo)
  have hfree := (piece_valid_one_iff g1.board hb1.1 _ _ _ _ hb1.2.2.1 hb1.2.2.2.2).1 hv1
  have hm := (mem_offs_map_iff g1.cur_piece g1.cur_rot g1.cur_r g1.cur_c hb1.2.2.1
    hb1.2.2.2.2 (cell_free g1.board)).1
    (fun c hc => by
      obtain ⟨o, ho, rfl⟩ := List.mem_map.1 hc
      exact hfree o ho)
  exact ⟨g1, hkey, hf.1, hm⟩

theorem active_piece_well_formed_witness :
    (0 ≤ start_loop16.g.cur_piece ∧ start_loop16.g.cur_piece < 7) ∧
      (0 ≤ start_loop16.g.next_piece ∧ start_loop16.g.next_piece < 7) ∧
      (0 ≤ start_loop16.g.cur_rot ∧ start_loop16.g.cur_rot < 4) ∧
      piece_valid start_loop16.g.board start_loop16.g.cur_piece start_loop16.g.cur_rot
        start_loop16.g.cur_r start_loop16.g.cur_c = some 1 ∧
      ∀ inp, ∃ g1, key_step 41 inp start_loop16.g = some g1 ∧
        g1.board = start_loop16.g.board ∧
        ∀ i : Int, 0 ≤ i → i < 4 → ∃ dr dc,
          pieces_at g1.cur_piece g1.cur_rot i 0 = some dr ∧
          pieces_at g1.cur_piece g1.cur_rot i 1 = some dc ∧
          0 ≤ g1.cur_r + dr ∧ g1.cur_r + dr < 20 ∧ 0 ≤ g1.cur_c + dc ∧ g1.cur_c + dc < 10 ∧
          board_get g1.board (g1.cur_r + dr) (g1.cur_c + dc) = some 0 :=
  active_piece_well_formed 16 (some 16) 41 (by decide) start_loop16
    (Reachable.start start_loop16 loop_start16) rfl

/-- C20: for every width of `int`, in every reachable state the board has no full row at
the head of the main loop; and if the loop is entered (`game_over = 0`), then for any
keyboard input the board that `piece_lock` produces from the state after the key
handling, which is the board on which the fall step invokes `clear_lines`, has at most 4
full rows, so that the lookup `pts[cleared]` is inside the table and `clear_lines`
completes, leaving no full row. -/
theorem at_most_four_full_rows (w : Nat) (iw : Option Nat) (fuel : Nat) (hfuel : 41 ≤ fuel)
    (s : Loop) (hreach : Reachable w iw fuel s) :
    count_full s.g.board = 0 ∧
      (s.g.game_over = 0 → ∀ inp, ∃ g1 gl p gc, key_step fuel inp s.g = some g1 ∧
        piece_lock g1 = some gl ∧ count_full gl.board ≤ 4 ∧
        clear_lines_loop fuel (ROWS - 1) gl.board 0 =
          some (gc.board, (count_full gl.board : Int)) ∧
        idx pts (count_full gl.board : Int) = some p ∧
        clear_lines iw fuel gl = some gc ∧ count_full gc.board = 0) := by
  obtain ⟨hb, hv⟩ := reachable_inv w iw fuel hfuel s hreach
  refine ⟨hb.2.1, fun hgo inp => ?_⟩
  obtain ⟨g1, hkey, hb1, hv1, -⟩ := key_step_inv fuel (by omega) inp s.g hb (hv hgo)
  obtain ⟨gl, gc, p, hlock, hwf, hk4, hp, -, hcl, -, hcf, -⟩ :=
    lock_at_fall iw fuel hfuel g1 hb1 hv1
  obtain ⟨gc2, p2, hcl2, -, -, hboard, -⟩ := clear_lines_some iw gl hwf fuel hfuel hk4
  have hgc : gc2 = gc := Option.some.inj (hcl2.symm.trans hcl)
  rw [hgc] at hboard
  exact ⟨g1, gl, p, gc, hkey, hlock, hk4,
    by rw [hboard]; exact clear_lines_loop_full gl.board hwf fuel hfuel, hp, hcl, hcf⟩

theorem at_most_four_full_rows_witness :
    count_full start_loop16.g.board = 0 ∧
      (start_loop16.g.game_over = 0 → ∀ inp, ∃ g1 gl p gc,
        key_step 41 inp start_loop16.g = some g1 ∧
        piece_lock g1 = some gl ∧ count_full gl.board ≤ 4 ∧
        clear_lines_loop 41 (ROWS - 1) gl.board 0 =
          some (gc.board, (count_full gl.board : Int)) ∧
        idx pts (count_full gl.board : Int) = some p ∧
        clear_lines (some 16) 41 gl = some gc ∧ count_full gc.board = 0) :=
  at_most_four_full_rows 16 (some 16) 41 (by decide) start_loop16
    (Reachable.start start_loop16 loop_start16)

/-! ## Quit -/

/-- C12 (as stated, refuted): a Quit iteration in which the fall counter reaches its
threshold still runs the fall step.  From `sample_game` the piece is locked, a line is
cleared and a new piece is spawned: score, lines and the active and next kinds change.
From the first loop head the piece moves one row down. -/
theorem quit_then_fall :
    get_key 0x51 none none = KEY_QUIT ∧
    (main_iter 16 (some 16) 41 (some (0x51, none, none))
        { g := sample_game, counter := 15999, fall_limit := 16000 }).map
      (fun s => (s.g.game_over, s.g.score, s.g.lines, s.g.cur_piece, s.g.next_piece,
        decide (s.g.board = sample_game.board))) = some (1, 1534, 26, 4, 5, false) ∧
    (sample_game.score, sample_game.lines, sample_game.cur_piece, sample_game.next_piece) =
      (1234, 25, 0, 4) ∧
    (main_iter 16 (some 16) 41 (some (0x51, none, none))
        { start_loop16 with counter := 19999 }).map
      (fun s => (s.g.game_over, s.g.cur_r)) = some (1, 1) ∧
    start_loop16.g.cur_r = 0 := by
  refine ⟨by decide, by rfl, by decide, by decide, by decide⟩

/-- C12 (amended): in an iteration whose decoded command is Quit the key handling only
sets `game_over` to 1; when the fall counter does not reach `fall_limit` in that
iteration, the iteration ends there: board, score, lines, level, active piece and next
piece are the same after the iteration as before it, and no lock, line clear or spawn
takes place. -/
theorem quit_iteration (w : Nat) (iw : Option Nat) (fuel : Nat) (s : Loop) (kbd : Nat)
    (rd2 rd3 : Option Nat) (hq : get_key kbd rd2 rd3 = KEY_QUIT) :
    key_step fuel (some (kbd, rd2, rd3)) s.g = some { s.g with game_over := 1 } ∧
      ((s.counter + 1) % 2 ^ w < s.fall_limit →
        main_iter w iw fuel (some (kbd, rd2, rd3)) s =
          some { g := { s.g with game_over := 1 }, counter := (s.counter + 1) % 2 ^ w,
                 fall_limit := s.fall_limit }) := by
  have hkey : key_step fuel (some (kbd, rd2, rd3)) s.g = some { s.g with game_over := 1 } := by
    simp only [key_step, hq]
    exact apply_key_quit fuel s.g
  refine ⟨hkey, fun hlt => ?_⟩
  have hc : ¬ ((s.counter + 1) % 2 ^ w ≥ s.fall_limit) := by omega
  simp [main_iter, hkey, hc]

theorem quit_iteration_witness :
    key_step 41 (some (0xD1, none, none)) start_loop16.g =
        some { start_loop16.g with game_over := 1 } ∧
      main_iter 16 (some 16) 41 (some (0xD1, none, none)) start_loop16 =
        some { g := { start_loop16.g with game_over := 1 }, counter := (0 + 1) % 2 ^ 16,
               fall_limit := 20000 } :=
  ⟨(quit_iteration 16 (some 16) 41 start_loop16 0xD1 none none (by decide)).1,
   (quit_iteration 16 (some 16) 41 start_loop16 0xD1 none none (by decide)).2 (by decide)⟩

end Tetris
